import Mathlib

/-!
# simpleapi: path tree, registration, dispatch and handler invocation

A shallow embedding of `src/simpleapi.go`.

* Go strings are Lean `String`s; the byte-level library functions the program calls
  (`strings.Split`, `strings.HasPrefix`, `strconv.Atoi`, `strconv.ParseInt`) are
  written out over the character list (all of them only inspect ASCII bytes).
* Go maps are total functions into `Option` (a Go map is an unordered finite map and
  the program only ever looks keys up and stores keys, it never iterates over a map).
* `*path` nodes form a tree (every node is made by `newPath()` and linked once), so
  the pointer structure is the inductive type `path`.
* `*handler` objects stay pointers: the same handler object is stored under several
  methods and remains reachable through its `Route`, so handlers live in a heap
  indexed by `Nat` and the tree stores indices.
* `reflect.Value` arguments are `Option Value`: `none` is the zero `reflect.Value`
  that `make([]reflect.Value, n)` produces.
* `int` is taken to be 64 bits wide.
-/

namespace simpleapi

/-! ## Strings -/

/-- The loop of `strings.Split(s, "/")`: `cur` holds the characters of the piece being
read, in reverse. -/
def splitLoop : List Char → List Char → List String
  | cur, [] => [String.mk cur.reverse]
  | cur, c :: cs =>
    if c = '/' then String.mk cur.reverse :: splitLoop [] cs else splitLoop (c :: cur) cs

/-- Go `strings.Split(s, "/")`: the pieces between slashes, empty pieces included
(`Split "" = [""]`). -/
def Split (s : String) : List String := splitLoop [] s.data

/-- Go `strings.HasPrefix(v, "{")`. -/
def hasOpenBrace (v : String) : Bool := v.data.head? == some '{'

/-- Go `strings.HasSuffix(v, "}")`. -/
def hasCloseBrace (v : String) : Bool := v.data.getLast? == some '}'

/-- Go `strings.TrimPrefix(strings.TrimSuffix(v, "}"), "{")`. -/
def trimBraces (v : String) : String :=
  let s := if v.data.getLast? == some '}' then v.data.dropLast else v.data
  String.mk (if s.head? == some '{' then s.tail else s)

/-! ## strconv -/

/-- The two errors of package `strconv`. -/
inductive NumError where
  | ErrSyntax
  | ErrRange
  deriving DecidableEq, Repr

/-- Largest `uint64`. -/
def maxUint64 : Nat := 2 ^ 64 - 1

/-- The digit loop of `strconv.ParseUint(s, 10, 64)`: `n` is the value read so far.
A byte that is not a decimal digit is a syntax error; overflow is reported as soon as
it happens, before the remaining bytes are looked at. -/
def parseUintLoop : Nat → List Char → Except NumError Nat
  | n, [] => .ok n
  | n, c :: cs =>
    if '0' ≤ c ∧ c ≤ '9' then
      if n ≥ maxUint64 / 10 + 1 then .error .ErrRange
      else
        let n1 := n * 10 + (c.toNat - '0'.toNat)
        if n1 > maxUint64 then .error .ErrRange else parseUintLoop n1 cs
    else .error .ErrSyntax

/-- Go `strconv.ParseUint(s, 10, 64)`, the error in place of Go's `(maxVal, err)`. -/
def ParseUint (s : List Char) : Except NumError Nat :=
  if s = [] then .error .ErrSyntax else parseUintLoop 0 s

/-- Go `strconv.ParseInt(s, 10, 64)` on the characters of `s`: the returned value and
the error. On a syntax error the value is 0; on a range error the value is the
nearest `int64` bound. -/
def parseIntChars (s : List Char) : Int × Option NumError :=
  if s = [] then (0, some .ErrSyntax)
  else
    let neg : Bool := s.head? == some '-'
    let rest := if s.head? == some '+' ∨ s.head? == some '-' then s.tail else s
    match ParseUint rest with
    | .error .ErrSyntax => (0, some .ErrSyntax)
    | .error .ErrRange =>
      if neg then (-(2 ^ 63 : Int), some .ErrRange) else ((2 ^ 63 : Int) - 1, some .ErrRange)
    | .ok un =>
      if !neg ∧ un ≥ 2 ^ 63 then ((2 ^ 63 : Int) - 1, some .ErrRange)
      else if neg ∧ un > 2 ^ 63 then (-(2 ^ 63 : Int), some .ErrRange)
      else (if neg then -(un : Int) else (un : Int), none)

/-- Go `strconv.ParseInt(s, 10, 64)`. -/
def ParseInt (s : String) : Int × Option NumError := parseIntChars s.data

/-- Go `strconv.Atoi(s)` with a 64-bit `int`: `some n` when `err == nil`. (Atoi's fast
path for short inputs accepts the same texts with the same values as `ParseInt`.) -/
def Atoi (s : String) : Option Int :=
  match ParseInt s with
  | (n, none) => some n
  | (_, some _) => none

/-! ## Values seen through `reflect` -/

/-- The `reflect.Kind` of a declared type. The kinds `call` switches on are listed by
name; a few of the others are listed and the rest are `Other`. -/
inductive Kind where
  | Bool | Int | Int8 | Int16 | Int32 | Int64 | Uint | Float32 | Float64
  | String | Struct | Ptr | Interface | Other
  deriving DecidableEq, Repr

/-- The bit width of a signed integer kind (`int` is 64 bits), 0 for the other kinds. -/
def Kind.bits : Kind → Nat
  | .Int => 64 | .Int8 => 8 | .Int16 => 16 | .Int32 => 32 | .Int64 => 64
  | _ => 0

/-- A Go value as far as this program looks at it. `float` carries the IEEE-754 bit
pattern. `error` is a value of a type that implements `error` and whose kind has a
nil value (interface, pointer, map, slice, func, chan), with `none` for nil.
`errorValue` is a value of a type that implements `error` and whose kind has no nil
value (a struct, string, number or array type with an `Error` method), told apart
by `id`. The other constructors are values of types that do not implement `error`;
`other` is any such value not listed, told apart by `id` (0 is the zero value). -/
inductive Value where
  | string (s : String)
  | int (k : Kind) (i : Int)
  | float (k : Kind) (fbits : Nat)
  | error (e : Option String)
  | errorValue (id : Nat)
  | other (k : Kind) (id : Nat)
  deriving DecidableEq, Repr

/-- A result slot of a function call: a plain value or a value of channel kind.
`chan xs` is a channel that can be received from (type `chan T` or `<-chan T`), given
by the finite sequence of values it produces before it is closed. `openChan xs` is
such a channel that produces `xs` and is never closed (the nil channel is
`openChan []`). `sendOnlyChan` is a channel of a send-only type `chan<- T`. -/
inductive Ret where
  | val (v : Value)
  | chan (xs : List Value)
  | openChan (xs : List Value)
  | sendOnlyChan
  deriving DecidableEq, Repr

/-- The value `reflect.New(T).Elem()` holds: the zero value of a type of kind `k`. -/
def zeroOf (k : Kind) : Value :=
  match k with
  | .String => .string ""
  | .Int | .Int8 | .Int16 | .Int32 | .Int64 => .int k 0
  | .Float32 | .Float64 => .float k 0
  | _ => .other k 0

/-- What `reflect.Value.SetInt(i)` stores in a signed integer of the given width: `i`
converted to that width (two's complement truncation, no overflow check). -/
def wrapInt (bits : Nat) (i : Int) : Int :=
  let r := i % (2 : Int) ^ bits
  if r < (2 : Int) ^ (bits - 1) then r else r - (2 : Int) ^ bits

/-- The library functions whose results are taken as given: `json.Marshal` (`none`
when it returns an error), `strconv.ParseFloat(s, 64)` (the returned bit pattern,
also when it returns an error) and the conversion `float32(f)`. -/
structure Lib where
  marshal : Value → Option String
  parseFloat : String → Nat
  toFloat32 : Nat → Nat

/-- A Go function value (not variadic) seen through `reflect`: the kinds of its
parameter types (`t.NumIn()` is the length, `t.In(i).Kind()` the entries) and what
calling it returns. -/
structure Func where
  ins : List Kind
  fn : List Value → List Ret

/-! ## Data model (`path`, `handler`, `param`, `API`, `Route`) -/

/-- Source `allMethods`. -/
def allMethods : List String :=
  ["CONNECT", "DELETE", "GET", "HEAD", "OPTIONS", "PATCH", "POST", "PUT", "TRACE"]

/-- Source `param`: `path` indexes the collected parameter values, `arg` the
handler's arguments. -/
structure param where
  path : Nat
  arg : Int
  deriving DecidableEq, Repr

/-- Source `handler`. `v` is `none` for the zero `reflect.Value` of `&handler{}`. -/
structure handler where
  v : Option Func
  params : List param
  jsonBody : Int

/-- Source `path`: a node of the path tree. `methods` maps a method name to the
address of a handler object. -/
inductive path where
  | mk (subpaths : String → Option path) (parameter : Option path)
      (methods : String → Option Nat)

/-- Field `subpaths`. -/
def path.subpaths : path → String → Option path
  | .mk s _ _ => s

/-- Field `parameter`. -/
def path.parameter : path → Option path
  | .mk _ q _ => q

/-- Field `methods`. -/
def path.methods : path → String → Option Nat
  | .mk _ _ m => m

/-- Source `newPath`. -/
def newPath : path := .mk (fun _ => none) none (fun _ => none)

/-- The map store `m[k] = v`. -/
def put {α : Type} (m : String → Option α) (k : String) (v : α) : String → Option α :=
  fun x => if x = k then some v else m x

/-- Source `API`, together with the heap of handler objects its routes point to:
`handlers i` is the object at address `i`, `next` the first unused address. -/
structure API where
  paths : path
  handlers : Nat → handler
  next : Nat

/-- Source `New`. -/
def New : API := ⟨newPath, fun _ => ⟨none, [], 0⟩, 0⟩

/-- Source `Route` (its `api` field is the `API` value passed along explicitly);
`handler` is the address of the handler object. -/
structure Route where
  route : String
  methods : List String
  handler : Nat
  deriving DecidableEq, Repr

/-- The store `*p = h` on the handler heap. -/
def API.setHandler (a : API) (i : Nat) (h : simpleapi.handler) : API :=
  { a with handlers := fun j => if j = i then h else a.handlers j }

/-- Source `API.Route`: a new route with a fresh `&handler{}` and no methods. -/
def API.Route (a : API) (route : String) : API × simpleapi.Route :=
  ({ a with handlers := fun j => if j = a.next then ⟨none, [], 0⟩ else a.handlers j,
            next := a.next + 1 },
   ⟨route, [], a.next⟩)

/-- Source `Route.Body`. -/
def Route.Body (a : API) (r : Route) (arg : Int) : API :=
  a.setHandler r.handler { a.handlers r.handler with jsonBody := arg }

/-! ## Registration (`addRoute`, `Route.To`) -/

/-- Lines 139-141 of `addRoute`: `some arg` when the segment has the prefix `{`, the
suffix `}` and `Atoi` of what is between them succeeds. -/
def placeholderArg (v : String) : Option Int :=
  if hasOpenBrace v && hasCloseBrace v then Atoi (trimBraces v) else none

/-- The `params`/`paramnum` part of the loop of `addRoute` (lines 135-164). -/
def paramLoop : Nat → List param → List String → List param
  | _, params, [] => params
  | paramnum, params, v :: vs =>
    if v = "" then paramLoop paramnum params vs
    else
      match placeholderArg v with
      | some arg =>
        paramLoop (paramnum + 1)
          (if arg > 0 then params ++ [⟨paramnum, arg⟩] else params) vs
      | none => paramLoop paramnum params vs

/-- Lines 169-171 of `addRoute`: `for _, m := range methods { p.methods[m] = h }`. -/
def storeMethods (h : Nat) : (String → Option Nat) → List String → (String → Option Nat)
  | ms, [] => ms
  | ms, m :: rest => storeMethods h (put ms m h) rest

/-- The tree part of `addRoute` (the walk of lines 135-164 followed by the stores of
lines 169-171), as the node `p` after the update: the walk descends into the
placeholder child or the literal child, creating it when absent, and the handler
address `h` is stored at the node where the segments end. -/
def routeLoop (methods : List String) (h : Nat) : path → List String → path
  | p, [] => .mk p.subpaths p.parameter (storeMethods h p.methods methods)
  | p, v :: vs =>
    if v = "" then routeLoop methods h p vs
    else
      match placeholderArg v with
      | some _ =>
        .mk p.subpaths (some (routeLoop methods h (p.parameter.getD newPath) vs)) p.methods
      | none =>
        .mk (put p.subpaths v (routeLoop methods h ((p.subpaths v).getD newPath) vs))
          p.parameter p.methods

/-- Source `API.addRoute`. Returns the route as well, whose `methods` the function
overwrites when empty. -/
def addRoute (a : API) (r : Route) : API × Route :=
  let pathsections := Split r.route
  let params := paramLoop 0 [] pathsections
  let methods := if r.methods.length = 0 then allMethods else r.methods
  let a1 := a.setHandler r.handler { a.handlers r.handler with params := params }
  ({ a1 with paths := routeLoop methods r.handler a1.paths pathsections },
   { r with methods := methods })

/-- Source `Route.To`, for a function value `f`. -/
def Route.To (a : API) (r : Route) (f : Func) : API × Route :=
  addRoute (a.setHandler r.handler { a.handlers r.handler with v := some f }) r

/-! ## Invocation (`handler.call`) -/

/-- The ways a request can end other than by `call` returning. Panics: a method call
on the zero `reflect.Value` (`h.v.Type()` of a handler without a function), an index
out of range (`args[i]`, `t.In(i)`, `params[i]`, `out[0]`), `reflect.Value.Call` given
an argument list that contains a zero `reflect.Value`, `out[1].IsNil()` on a value
whose kind has no nil value, and `out[0].Recv()` on a channel of a send-only type.
Not a panic: `out[0].Recv()` waiting forever on a channel that is never closed. -/
inductive Fault where
  | zeroValueMethod
  | indexOutOfRange
  | zeroValueArgument
  | isNilOfNonNilable
  | recvOnSendOnly
  | blocksForever
  deriving DecidableEq, Repr

/-- What the program does to its `http.ResponseWriter`: the status passed to
`WriteHeader` (`none` when it is never called), the header fields it sets, and the
bytes it writes. -/
structure ResponseWriter where
  status : Option Nat
  header : List (String × String)
  body : String
  deriving DecidableEq, Repr

/-- A response writer nothing has been done to. -/
def ResponseWriter.fresh : ResponseWriter := ⟨none, [], ""⟩

/-- `w.WriteHeader(code)`. -/
def ResponseWriter.WriteHeader (w : ResponseWriter) (code : Nat) : ResponseWriter :=
  { w with status := some code }

/-- `w.Header().Set(k, v)`. -/
def ResponseWriter.SetHeader (w : ResponseWriter) (k v : String) : ResponseWriter :=
  { w with header := (k, v) :: w.header.filter (fun e => e.1 ≠ k) }

/-- `w.Write(b)`. -/
def ResponseWriter.Write (w : ResponseWriter) (b : String) : ResponseWriter :=
  { w with body := w.body ++ b }

/-- The request fields the program reads. -/
structure Request where
  Path : String
  Method : String
  Body : String
  deriving DecidableEq, Repr

/-- Lines 59-63 of `call`. When `jsonBody > 0` the slot becomes the zero value of its
declared type. `dec.Decode` is handed `args[jsonBody].Interface()`, a copy of that
zero value and not a pointer to the slot, so nothing it does can change the slot
(and its error is dropped). -/
def bindBody (f : Func) (jsonBody : Int) (args : List (Option Value)) :
    Except Fault (List (Option Value)) :=
  if jsonBody > 0 then
    match f.ins[jsonBody.toNat]? with
    | some k => .ok (args.set jsonBody.toNat (some (zeroOf k)))
    | none => .error .indexOutOfRange
  else .ok args

/-- The `switch` of lines 66-75 of `call`: the value the slot of kind `k` ends up
with, from the zero value `reflect.New(t.In(p.arg)).Elem()` and the collected
parameter at index `i`. `params[i]` is only evaluated in the string, signed integer
and float cases. The error of `ParseInt` is dropped and the value it returned is
stored by `SetInt`. -/
def coerce (lib : Lib) (k : Kind) (params : List String) (i : Nat) : Except Fault Value :=
  match k with
  | .String =>
    match params[i]? with
    | some s => .ok (.string s)
    | none => .error .indexOutOfRange
  | .Int | .Int8 | .Int16 | .Int32 | .Int64 =>
    match params[i]? with
    | some s => .ok (.int k (wrapInt k.bits (ParseInt s).1))
    | none => .error .indexOutOfRange
  | .Float32 =>
    match params[i]? with
    | some s => .ok (.float k (lib.toFloat32 (lib.parseFloat s)))
    | none => .error .indexOutOfRange
  | .Float64 =>
    match params[i]? with
    | some s => .ok (.float k (lib.parseFloat s))
    | none => .error .indexOutOfRange
  | _ => .ok (zeroOf k)

/-- One round of the loop of lines 64-76 of `call`. -/
def bindParam (lib : Lib) (f : Func) (params : List String) (args : List (Option Value))
    (p : param) : Except Fault (List (Option Value)) :=
  if p.arg < 0 then .error .indexOutOfRange
  else
    match f.ins[p.arg.toNat]? with
    | none => .error .indexOutOfRange
    | some k =>
      match coerce lib k params p.path with
      | .error e => .error e
      | .ok x => .ok (args.set p.arg.toNat (some x))

/-- The loop of lines 64-76 of `call`. -/
def bindLoop (lib : Lib) (f : Func) (params : List String) :
    List (Option Value) → List param → Except Fault (List (Option Value))
  | args, [] => .ok args
  | args, p :: ps =>
    match bindParam lib f params args p with
    | .error e => .error e
    | .ok args1 => bindLoop lib f params args1 ps

/-- Lines 58-76 of `call`: the argument list handed to `h.v.Call`. -/
def buildArgs (lib : Lib) (f : Func) (h : handler) (params : List String) :
    Except Fault (List (Option Value)) :=
  match bindBody f h.jsonBody (List.replicate f.ins.length none) with
  | .error e => .error e
  | .ok args => bindLoop lib f params args h.params

/-- The values of an argument list, when none of its entries is the zero
`reflect.Value`. -/
def allValid : List (Option Value) → Option (List Value)
  | [] => some []
  | none :: _ => none
  | some v :: rest =>
    match allValid rest with
    | some vs => some (v :: vs)
    | none => none

/-- The frames of lines 92-101 of `call` for the values a channel produces:
`data: `, the `json.Marshal` bytes (nothing when Marshal fails), two newlines. -/
def frames (lib : Lib) (w : ResponseWriter) : List Value → ResponseWriter
  | [] => w
  | d :: ds =>
    frames lib (((w.Write "data: ").Write ((lib.marshal d).getD "")).Write "\n\n") ds

/-- The test of lines 78-80 of `call`: `true` when there are exactly two results and
the second is of a type implementing `error` and is not nil. When the second of two
results is of a type implementing `error` whose kind has no nil value,
`out[1].IsNil()` panics. -/
def errorCheck : List Ret → Except Fault Bool
  | [_, .val (.error (some _))] => .ok true
  | [_, .val (.errorValue _)] => .error .isNilOfNonNilable
  | _ => .ok false

/-- Lines 78-101 of `call`: rendering of the results `out`. `json.Encoder.Encode`
writes the `json.Marshal` bytes followed by a newline, and writes nothing when the
value cannot be marshalled. For a value of channel kind the header is set before
the first `Recv`, which panics on a send-only channel type and, once the values
produced are written, waits forever on a channel that is never closed. -/
def render (lib : Lib) (out : List Ret) (w : ResponseWriter) : ResponseWriter × Option Fault :=
  match errorCheck out with
  | .error e => (w, some e)
  | .ok true => (w.WriteHeader 500, none)
  | .ok false =>
    match out with
    | [] => (w, some .indexOutOfRange)
    | .val x :: _ =>
      match lib.marshal x with
      | some js => (w.Write (js ++ "\n"), none)
      | none => (w, none)
    | .chan xs :: _ => (frames lib (w.SetHeader "Content-Type" "text/event-stream") xs, none)
    | .openChan xs :: _ =>
      (frames lib (w.SetHeader "Content-Type" "text/event-stream") xs, some .blocksForever)
    | .sendOnlyChan :: _ =>
      (w.SetHeader "Content-Type" "text/event-stream", some .recvOnSendOnly)

/-- What a request leads to: the handler address and collected parameters `call` was
entered with (`called`), the arguments the handler function ran with (`invoked`,
`none` when it did not run), the response writer, and the panic that ended the
request, if any. -/
structure Outcome where
  called : Option (Nat × List String)
  invoked : Option (List Value)
  w : ResponseWriter
  fault : Option Fault
  deriving DecidableEq, Repr

/-- Source `handler.call`. `h.v.Call(args)` panics (`reflect: Call using zero Value
argument`) when an entry of `args` is the zero `reflect.Value`, which is what
`make([]reflect.Value, n)` fills the list with; otherwise the function runs on the
argument values. -/
def call (lib : Lib) (h : handler) (params : List String) (w : ResponseWriter)
    (_r : Request) : Outcome :=
  match h.v with
  | none => ⟨none, none, w, some .zeroValueMethod⟩
  | some f =>
    match buildArgs lib f h params with
    | .error e => ⟨none, none, w, some e⟩
    | .ok args =>
      match allValid args with
      | none => ⟨none, none, w, some .zeroValueArgument⟩
      | some vals =>
        let res := render lib (f.fn vals) w
        ⟨none, some vals, res.1, res.2⟩

/-! ## Dispatch (`ServeHTTP`) -/

/-- The loop of lines 178-193 of `ServeHTTP`: the node reached and the parameters
collected, `none` when the loop ends in the 404 of line 191. -/
def serveLoop : path → List String → List String → Option (path × List String)
  | p, params, [] => some (p, params)
  | p, params, v :: vs =>
    if v = "" then serveLoop p params vs
    else
      match p.subpaths v with
      | some subp => serveLoop subp params vs
      | none =>
        match p.parameter with
        | some subp => serveLoop subp (params ++ [v]) vs
        | none => none

/-- The outcome of `w.WriteHeader(404); return`. -/
def notFound : Outcome := ⟨none, none, ResponseWriter.fresh.WriteHeader 404, none⟩

/-- Source `API.ServeHTTP`, on a fresh response writer. -/
def ServeHTTP (lib : Lib) (a : API) (r : Request) : Outcome :=
  match serveLoop a.paths [] (Split r.Path) with
  | none => notFound
  | some (p, params) =>
    match p.methods r.Method with
    | none => notFound
    | some m =>
      { call lib (a.handlers m) params ResponseWriter.fresh r with called := some (m, params) }

/-! ## Positions in the tree -/

/-- The non-empty pieces of a pattern or of a request path. -/
def segments (s : String) : List String := (Split s).filter (fun v => v ≠ "")

/-- An edge of the path tree: the literal child with a given key, or the placeholder
child. -/
inductive Edge where
  | lit (s : String)
  | par
  deriving DecidableEq, Repr

/-- The edge `addRoute` takes for a non-empty pattern segment. -/
def edgeOf (v : String) : Edge :=
  match placeholderArg v with
  | some _ => .par
  | none => .lit v

/-- The edges `addRoute` takes for the pieces of a pattern. -/
def edges (sections : List String) : List Edge :=
  (sections.filter (fun v => v ≠ "")).map edgeOf

/-- The child of a node along an edge. -/
def child (p : path) : Edge → Option path
  | .lit s => p.subpaths s
  | .par => p.parameter

/-- The node at a position (a list of edges below `p`), if it exists. -/
def nodeAt : path → List Edge → Option path
  | p, [] => some p
  | p, e :: es =>
    match child p e with
    | some c => nodeAt c es
    | none => none

/-- The (node, method) entry of the tree: the handler address stored for method `m`
at the node at position `es`. -/
def entry (t : path) (es : List Edge) (m : String) : Option Nat :=
  match nodeAt t es with
  | some n => n.methods m
  | none => none

/-- The tree update of `addRoute` in terms of the position it walks to. -/
def insertAt (methods : List String) (h : Nat) : path → List Edge → path
  | p, [] => .mk p.subpaths p.parameter (storeMethods h p.methods methods)
  | p, .par :: es =>
    .mk p.subpaths (some (insertAt methods h (p.parameter.getD newPath) es)) p.methods
  | p, .lit v :: es =>
    .mk (put p.subpaths v (insertAt methods h ((p.subpaths v).getD newPath) es))
      p.parameter p.methods

/-- The method set `addRoute` stores under (lines 166-168). -/
def effMethods (r : Route) : List String :=
  if r.methods.length = 0 then allMethods else r.methods

/-- The calls a program can make on the router before it serves requests:
`a.Route(pattern)`, `r.Body(arg)` and `r.To(f)`. -/
inductive Op where
  | Route (pattern : String)
  | Body (r : Route) (arg : Int)
  | To (r : Route) (f : Func)

/-- The router state after one call. -/
def step (a : API) : Op → API
  | .Route s => (a.Route s).1
  | .Body r arg => r.Body a arg
  | .To r f => (r.To a f).1

/-- The router state after a sequence of calls. -/
def run (a : API) (ops : List Op) : API := ops.foldl step a

/-- A request's segments agree with a pattern's segments: there are as many, and at
every literal position they are equal. -/
def agrees : List String → List String → Prop
  | [], [] => True
  | p :: ps, r :: rs => ((placeholderArg p).isSome = true ∨ p = r) ∧ agrees ps rs
  | _, _ => False

/-- The request's texts at the placeholder positions of the pattern, left to right. -/
def captured : List String → List String → List String
  | p :: ps, r :: rs =>
    if (placeholderArg p).isSome then r :: captured ps rs else captured ps rs
  | _, _ => []

/-- No request segment standing at a placeholder position of the pattern is the key
of a literal child of the node the pattern reaches there. -/
def unshadowed : path → List String → List String → Prop
  | t, p :: ps, r :: rs =>
    (edgeOf p = .par → t.subpaths r = none) ∧
      (∀ c, child t (edgeOf p) = some c → unshadowed c ps rs)
  | _, _, _ => True

/-! ## Example programs -/

/-- An instance of the library for the examples: `json.Marshal` on signed integers
(the decimal numeral) and nothing else; the float functions are not used. -/
def decimalLib : Lib :=
  ⟨fun x => match x with
     | .int _ i => some (toString i)
     | _ => none,
   fun _ => 0, fun b => b⟩

/-- The function `func(id int, name string) string { return name }`. -/
def helloFunc : Func := ⟨[.Int, .String], fun args => [.val (args.getD 1 (.string ""))]⟩

/-- The router after `r := a.Route("/hello/{1}"); r.To(helloFunc)`. -/
def helloAPI : API :=
  ((New.Route "/hello/{1}").2.To (New.Route "/hello/{1}").1 helloFunc).1

/-- The function `func() int { return 1 }`. -/
def oneFunc : Func := ⟨[], fun _ => [.val (.int .Int 1)]⟩

/-- The function `func() int { return 2 }`. -/
def twoFunc : Func := ⟨[], fun _ => [.val (.int .Int 2)]⟩

/-- The program `a.Route(s1).To(f1); a.Route(s2).To(f2)` on a new router: the first
route's handler is at address 0, the second's at address 1. -/
def twoRoutes (s1 : String) (f1 : Func) (s2 : String) (f2 : Func) : API :=
  run New [.Route s1, .To ⟨s1, [], 0⟩ f1, .Route s2, .To ⟨s2, [], 1⟩ f2]

/-- One server-sent-event frame: `data: `, the JSON text, two newlines. -/
def frame (js : String) : String := "data: " ++ js ++ "\n\n"

/-- The concatenation of a list of strings, in order. -/
def concatAll : List String → String
  | [] => ""
  | s :: ss => s ++ concatAll ss

/-- The function `func() (int, error) { return 1, errors.New("boom") }`. -/
def failingFunc : Func := ⟨[], fun _ => [.val (.int .Int 1), .val (.error (some "boom"))]⟩

/-- The function `func() chan int` whose channel produces 1, 2, 3 and is closed. -/
def countFunc : Func := ⟨[], fun _ => [.chan [.int .Int 1, .int .Int 2, .int .Int 3]]⟩

/-- The function `func(x int, id int64) int64 { return id }`. -/
def itemFunc : Func := ⟨[.Int, .Int64], fun args => [.val (args.getD 1 (.int .Int64 0))]⟩

/-- The router after `a.Route("/item/{1}").To(itemFunc)`. -/
def itemAPI : API := run New [.Route "/item/{1}", .To ⟨"/item/{1}", [], 0⟩ itemFunc]

/-- The function `func(x int, n int) int { return n }`. -/
def bodyFunc : Func := ⟨[.Int, .Int], fun args => [.val (args.getD 1 (.int .Int 0))]⟩

/-- The router after `r := a.Route("/n"); r.Body(1); r.To(bodyFunc)`. -/
def bodyAPI : API :=
  run New [.Route "/n", .Body ⟨"/n", [], 0⟩ 1, .To ⟨"/n", [], 0⟩ bodyFunc]

/-- A decimal digit. -/
def isDigit (c : Char) : Prop := '0' ≤ c ∧ c ≤ '9'

/-- The number a string of decimal digits denotes, read after the digits of `n`. -/
def digitsValue : Nat → List Char → Nat
  | n, [] => n
  | n, c :: cs => digitsValue (n * 10 + (c.toNat - '0'.toNat)) cs

/-- The text `body` is a base-10 integer numeral denoting `n`: one or more decimal
digits, optionally preceded by one sign `+` or `-`. -/
def SignedNumeral (body : List Char) (n : Int) : Prop :=
  ∃ digits, digits ≠ [] ∧ (∀ c ∈ digits, isDigit c) ∧
    ((body = digits ∧ n = (digitsValue 0 digits : Int)) ∨
     (body = '+' :: digits ∧ n = (digitsValue 0 digits : Int)) ∨
     (body = '-' :: digits ∧ n = -(digitsValue 0 digits : Int)))

/-- The integers written in the placeholder segments of a pattern, left to right. -/
def placeholders (segs : List String) : List Int := segs.filterMap placeholderArg

/-- The binding plan as the specification words it: the pairs `(k, n)`, left to
right, for each placeholder `{n}` with `n > 0`, where `k` is the number of
placeholder segments before it. -/
def bindingPlan (segs : List String) : List param :=
  ((placeholders segs).enum.filter (fun kn => kn.2 > 0)).map (fun kn => ⟨kn.1, kn.2⟩)

/-- The function `func(x int, b int8) int8 { return b }`. -/
def byteFunc : Func := ⟨[.Int, .Int8], fun args => [.val (args.getD 1 (.int .Int8 0))]⟩

/-- The router after `a.Route("/b/{1}").To(byteFunc)`. -/
def byteAPI : API := run New [.Route "/b/{1}", .To ⟨"/b/{1}", [], 0⟩ byteFunc]

/-- The router after `r := a.Route("/x/{1}"); r.Body(1); r.To(helloFunc)`. -/
def collideAPI : API :=
  run New [.Route "/x/{1}", .Body ⟨"/x/{1}", [], 0⟩ 1, .To ⟨"/x/{1}", [], 0⟩ helloFunc]

/-! ## Client programs -/

/-- A call a client program makes through the exported interface. The program holds
the `*Route` values `a.Route` returned, numbered in creation order; `Body i` and
`To i` are calls on the `i`-th of them. -/
inductive Cmd where
  | Route (pattern : String)
  | Body (i : Nat) (arg : Int)
  | To (i : Nat) (f : Func)

/-- The router together with the routes the client program holds. -/
structure Client where
  api : API
  routes : List Route

/-- One call of a client program (a call on a route that does not exist does
nothing). -/
def exec (c : Client) : Cmd → Client
  | .Route s => ⟨(c.api.Route s).1, c.routes ++ [(c.api.Route s).2]⟩
  | .Body i arg =>
    match c.routes[i]? with
    | some r => ⟨r.Body c.api arg, c.routes⟩
    | none => c
  | .To i f =>
    match c.routes[i]? with
    | some r => ⟨(r.To c.api f).1, c.routes.set i (r.To c.api f).2⟩
    | none => c

/-- The state a client program reaches from `New()`. -/
def execAll (cs : List Cmd) : Client := cs.foldl exec ⟨New, []⟩

/-- What holds of every state a client program reaches: the routes' handler objects
are at the addresses `0, 1, ...` in creation order, and every entry of the tree
points to the handler of a route whose pattern leads to that entry's node and whose
bindings are those of that pattern. -/
def ClientInv (c : Client) : Prop :=
  c.api.next = c.routes.length ∧
  (∀ (i : Nat) (r : Route), c.routes[i]? = some r → r.handler = i) ∧
  (∀ (es : List Edge) (m : String) (h : Nat), entry c.api.paths es m = some h →
    ∃ r : Route, c.routes[h]? = some r ∧ es = edges (Split r.route) ∧
      (c.api.handlers h).params = paramLoop 0 [] (Split r.route))

/-- The function `func() (int, structErr) { return 1, structErr{} }`, where `structErr`
is a struct type with an `Error` method. -/
def structErrFunc : Func := ⟨[], fun _ => [.val (.int .Int 1), .val (.errorValue 0)]⟩

/-- The router after `a.Route("/e").To(structErrFunc)`. -/
def structErrAPI : API := run New [.Route "/e", .To ⟨"/e", [], 0⟩ structErrFunc]

/-- The function `func() (chan int, error)` that returns a channel producing 1, 2, 3
and then closed, together with `errors.New("boom")`. -/
def streamErrFunc : Func :=
  ⟨[], fun _ => [.chan [.int .Int 1, .int .Int 2, .int .Int 3], .val (.error (some "boom"))]⟩

/-- The function `func() chan<- int`, whose result is of a send-only channel type. -/
def sendOnlyFunc : Func := ⟨[], fun _ => [.sendOnlyChan]⟩

/-- The text after one leading sign `+` or `-`, if there is one. -/
def afterSign (s : List Char) : List Char :=
  if s.head? = some '+' ∨ s.head? = some '-' then s.tail else s

/-- The text is a base-10 integer numeral whose value is within the `int64` range. -/
def Int64Numeral (s : List Char) : Prop :=
  ∃ n, SignedNumeral s n ∧ -9223372036854775808 ≤ n ∧ n ≤ 9223372036854775807

/-- The text is a base-10 integer numeral whose value is outside the `int64` range,
or its part after the optional sign starts with decimal digits that denote more
than 2^64 - 1 (whatever follows them). -/
def OverflowingText (s : List Char) : Prop :=
  (∃ n, SignedNumeral s n ∧ (n < -9223372036854775808 ∨ 9223372036854775807 < n)) ∨
  (∃ p rest, afterSign s = p ++ rest ∧ (∀ c ∈ p, isDigit c) ∧
    18446744073709551615 < digitsValue 0 p)

/-- The largest `int64`, or the smallest when the text starts with `-`. -/
def int64Bound (s : List Char) : Int :=
  if s.head? = some '-' then -9223372036854775808 else 9223372036854775807

/-! ## Lemmas on the tree -/

theorem serveLoop_filter (l : List String) : ∀ (p : path) (acc : List String),
    serveLoop p acc l = serveLoop p acc (l.filter (fun v => v ≠ "")) := by
  induction l with
  | nil => intro p acc; rfl
  | cons v vs ih =>
    intro p acc
    by_cases hv : v = ""
    · simp [serveLoop, hv, ih p acc]
    · simp only [serveLoop, hv, if_false, List.filter, ne_eq, not_false_eq_true, decide_True]
      cases p.subpaths v with
      | some c => simp only [ih c acc]
      | none =>
        cases p.parameter with
        | some c => simp only [ih c (acc ++ [v])]
        | none => rfl

theorem storeMethods_apply (h : Nat) (ms : List String) :
    ∀ (m : String → Option Nat) (x : String),
      storeMethods h m ms x = if x ∈ ms then some h else m x := by
  induction ms with
  | nil => intro m x; simp [storeMethods]
  | cons k rest ih =>
    intro m x
    simp only [storeMethods, ih, put, List.mem_cons]
    by_cases h1 : x ∈ rest
    · simp [h1]
    · by_cases h2 : x = k <;> simp [h1, h2]

theorem routeLoop_eq_insertAt (ms : List String) (h : Nat) (l : List String) :
    ∀ p : path, routeLoop ms h p l = insertAt ms h p (edges l) := by
  induction l with
  | nil => intro p; rfl
  | cons v vs ih =>
    intro p
    by_cases hv : v = ""
    · simp [routeLoop, hv, edges, ih p]
    · have he : edges (v :: vs) = edgeOf v :: edges vs := by simp [edges, hv]
      rw [he]
      simp only [routeLoop, hv, if_false, edgeOf]
      cases placeholderArg v with
      | some _ => simp only [insertAt, ih]
      | none => simp only [insertAt, ih]

theorem nodeAt_newPath (es : List Edge) (hne : es ≠ []) : nodeAt newPath es = none := by
  cases es with
  | nil => exact absurd rfl hne
  | cons e es => cases e <;> rfl

theorem entry_newPath (es : List Edge) (m : String) : entry newPath es m = none := by
  cases es with
  | nil => rfl
  | cons e es => simp [entry, nodeAt_newPath]

theorem entry_cons (t : path) (e : Edge) (es : List Edge) (m : String) :
    entry t (e :: es) m = match child t e with
      | some c => entry c es m
      | none => none := by
  simp only [entry, nodeAt]
  cases child t e <;> rfl

theorem child_insertAt_cons_same (ms : List String) (h : Nat) (t : path) (e : Edge)
    (es : List Edge) :
    child (insertAt ms h t (e :: es)) e
      = some (insertAt ms h ((child t e).getD newPath) es) := by
  cases e with
  | lit v => simp [insertAt, child, path.subpaths, put]
  | par => simp [insertAt, child, path.parameter]

theorem child_insertAt_cons_other (ms : List String) (h : Nat) (t : path) (e e1 : Edge)
    (es : List Edge) (hne : e1 ≠ e) :
    child (insertAt ms h t (e :: es)) e1 = child t e1 := by
  cases e with
  | lit v =>
    cases e1 with
    | lit v1 =>
      have : v1 ≠ v := fun hv => hne (by rw [hv])
      simp [insertAt, child, path.subpaths, put, this]
    | par => simp [insertAt, child, path.parameter]
  | par =>
    cases e1 with
    | lit v1 => simp [insertAt, child, path.subpaths]
    | par => exact absurd rfl hne

/-- Frame lemma for the tree update: the entry at position `es` for a method of `ms`
becomes `h`, every other (position, method) entry is as before. -/
theorem entry_insertAt (ms : List String) (h : Nat) (m : String) (es : List Edge) :
    ∀ (t : path) (es1 : List Edge),
      entry (insertAt ms h t es) es1 m
        = if es1 = es ∧ m ∈ ms then some h else entry t es1 m := by
  induction es with
  | nil =>
    intro t es1
    cases es1 with
    | nil =>
      simp only [entry, nodeAt, insertAt, path.methods, storeMethods_apply, true_and]
    | cons e1 rest =>
      simp only [entry_cons, false_and, if_false, reduceCtorEq]
      cases e1 <;> rfl
  | cons e es ih =>
    intro t es1
    cases es1 with
    | nil =>
      simp only [false_and, if_false, reduceCtorEq]
      cases e <;> rfl
    | cons e1 rest =>
      by_cases he : e1 = e
      · subst he
        rw [entry_cons, child_insertAt_cons_same, entry_cons]
        simp only [ih, List.cons.injEq, true_and]
        cases hc : child t e1 with
        | some c => simp
        | none => simp [entry_newPath]
      · rw [entry_cons, child_insertAt_cons_other ms h t e e1 es he, entry_cons]
        simp [he]

theorem nodeAt_insertAt_self (ms : List String) (h : Nat) (es : List Edge) :
    ∀ t : path, ∃ n, nodeAt (insertAt ms h t es) es = some n := by
  induction es with
  | nil => intro t; exact ⟨_, rfl⟩
  | cons e es ih =>
    intro t
    simp only [nodeAt, child_insertAt_cons_same]
    exact ih _

theorem nodeAt_insertAt_mono (ms : List String) (h : Nat) (es : List Edge) :
    ∀ (t : path) (es1 : List Edge) (n : path), nodeAt t es1 = some n →
      ∃ n1, nodeAt (insertAt ms h t es) es1 = some n1 := by
  induction es with
  | nil =>
    intro t es1 n hn
    cases es1 with
    | nil => exact ⟨_, rfl⟩
    | cons e1 rest =>
      refine ⟨n, ?_⟩
      rw [← hn]
      cases e1 <;> rfl
  | cons e es ih =>
    intro t es1 n hn
    cases es1 with
    | nil => exact ⟨_, rfl⟩
    | cons e1 rest =>
      by_cases he : e1 = e
      · subst he
        simp only [nodeAt, child_insertAt_cons_same]
        simp only [nodeAt] at hn
        cases hc : child t e1 with
        | some c =>
          rw [hc] at hn
          exact ih c rest n hn
        | none => rw [hc] at hn; exact absurd hn (by simp)
      · simp only [nodeAt, child_insertAt_cons_other ms h t e e1 es he]
        exact ⟨n, hn⟩

theorem To_paths (a : API) (r : Route) (f : Func) :
    (r.To a f).1.paths = insertAt (effMethods r) r.handler a.paths (edges (Split r.route)) := by
  simp only [Route.To, addRoute, API.setHandler, effMethods, routeLoop_eq_insertAt]

theorem step_paths (a : API) (op : Op) :
    (step a op).paths = match op with
      | .To r _ => insertAt (effMethods r) r.handler a.paths (edges (Split r.route))
      | _ => a.paths := by
  cases op with
  | Route s => rfl
  | Body r arg => rfl
  | To r f => exact To_paths a r f

/-- Calls that do not register at position `es` for method `m` leave that entry as it
is. -/
theorem run_entry_frame (es : List Edge) (m : String) (ops : List Op) :
    ∀ a : API,
      (∀ r f, Op.To r f ∈ ops → edges (Split r.route) = es → m ∉ effMethods r) →
      entry (run a ops).paths es m = entry a.paths es m := by
  induction ops with
  | nil => intro a _; rfl
  | cons op rest ih =>
    intro a hfree
    have h1 : entry (run (step a op) rest).paths es m = entry (step a op).paths es m :=
      ih (step a op) (fun r f hmem => hfree r f (List.mem_cons_of_mem _ hmem))
    have h2 : entry (step a op).paths es m = entry a.paths es m := by
      rw [step_paths]
      cases op with
      | Route s => rfl
      | Body r arg => rfl
      | To r f =>
        simp only [entry_insertAt]
        have := hfree r f (List.mem_cons_self _ _)
        by_cases he : es = edges (Split r.route)
        · simp [this he.symm]
        · simp [he]
    exact h1.trans h2

/-- Nodes are never removed: a position that exists keeps existing. -/
theorem run_nodeAt_mono (es : List Edge) (ops : List Op) :
    ∀ (a : API) (n : path), nodeAt a.paths es = some n →
      ∃ n1, nodeAt (run a ops).paths es = some n1 := by
  induction ops with
  | nil => intro a n hn; exact ⟨n, hn⟩
  | cons op rest ih =>
    intro a n hn
    have h1 : ∃ n1, nodeAt (step a op).paths es = some n1 := by
      rw [step_paths]
      cases op with
      | Route s => exact ⟨n, hn⟩
      | Body r arg => exact ⟨n, hn⟩
      | To r f => exact nodeAt_insertAt_mono _ _ _ _ _ n hn
    obtain ⟨n1, hn1⟩ := h1
    exact ih (step a op) n1 hn1

/-- The walk of `ServeHTTP` on a request that agrees with a pattern whose position
exists and is not shadowed: it ends at the pattern's node with the texts at the
placeholder positions collected in order. -/
theorem serveLoop_pattern (ps : List String) :
    ∀ (rs : List String) (t : path) (acc : List String) (n : path),
      (∀ v ∈ rs, v ≠ "") → nodeAt t (ps.map edgeOf) = some n → agrees ps rs →
      unshadowed t ps rs → serveLoop t acc rs = some (n, acc ++ captured ps rs) := by
  induction ps with
  | nil =>
    intro rs t acc n _ hn hag _
    cases rs with
    | nil =>
      simp only [List.map, nodeAt, Option.some.injEq] at hn
      simp [serveLoop, captured, hn]
    | cons r rs => exact absurd hag (by simp [agrees])
  | cons p ps ih =>
    intro rs t acc n hne hn hag hun
    cases rs with
    | nil => exact absurd hag (by simp [agrees])
    | cons r rs =>
      have hr : r ≠ "" := hne r (List.mem_cons_self _ _)
      have hrs : ∀ v ∈ rs, v ≠ "" := fun v hv => hne v (List.mem_cons_of_mem _ hv)
      simp only [agrees] at hag
      simp only [unshadowed] at hun
      simp only [List.map, nodeAt] at hn
      cases hc : child t (edgeOf p) with
      | none => rw [hc] at hn; exact absurd hn (by simp)
      | some c =>
        rw [hc] at hn
        have hunc := hun.2 c hc
        cases hp : placeholderArg p with
        | some arg =>
          have hedge : edgeOf p = .par := by simp [edgeOf, hp]
          have hsub := hun.1 hedge
          rw [hedge] at hc
          simp only [child] at hc
          simp only [serveLoop, hr, if_false, hsub, hc, captured, hp, Option.isSome_some,
            if_true]
          rw [ih rs c (acc ++ [r]) n hrs hn hag.2 hunc]
          simp
        | none =>
          have hedge : edgeOf p = .lit p := by simp [edgeOf, hp]
          have hpr : p = r := by
            rcases hag.1 with h | h
            · simp [hp] at h
            · exact h
          subst hpr
          rw [hedge] at hc
          simp only [child] at hc
          simp only [serveLoop, hr, if_false, hc, captured, hp, Option.isSome_none]
          rw [ih rs c acc n hrs hn hag.2 hunc]
          simp

/-! ## Lemmas on the argument list -/

theorem set_succ_head (x : Option Value) (rest : List (Option Value)) (n : Nat)
    (y : Option Value) (hn : 1 ≤ n) : ∃ rest1, (x :: rest).set n y = x :: rest1 := by
  cases n with
  | zero => omega
  | succ k => exact ⟨rest.set k y, rfl⟩

theorem bindBody_head (f : Func) (jb : Int) (rest out : List (Option Value))
    (h : bindBody f jb (none :: rest) = .ok out) : ∃ rest1, out = none :: rest1 := by
  unfold bindBody at h
  by_cases hjb : jb > 0
  · simp only [hjb, if_true] at h
    cases hk : f.ins[jb.toNat]? with
    | none => rw [hk] at h; cases h
    | some k =>
      simp only [hk] at h
      have h1 : 1 ≤ jb.toNat := by omega
      obtain ⟨rest1, hr⟩ := set_succ_head none rest jb.toNat (some (zeroOf k)) h1
      rw [hr] at h
      cases h
      exact ⟨rest1, rfl⟩
  · simp only [hjb, if_false] at h
    cases h
    exact ⟨rest, rfl⟩

theorem bindParam_head (lib : Lib) (f : Func) (params : List String) (p : param)
    (hp : 0 < p.arg) (rest out : List (Option Value))
    (h : bindParam lib f params (none :: rest) p = .ok out) : ∃ rest1, out = none :: rest1 := by
  unfold bindParam at h
  have hneg : ¬ p.arg < 0 := by omega
  simp only [hneg, if_false] at h
  cases hk : f.ins[p.arg.toNat]? with
  | none => rw [hk] at h; cases h
  | some k =>
    simp only [hk] at h
    cases hc : coerce lib k params p.path with
    | error e => simp only [hc] at h; cases h
    | ok x =>
      simp only [hc] at h
      have h1 : 1 ≤ p.arg.toNat := by omega
      obtain ⟨rest1, hr⟩ := set_succ_head none rest p.arg.toNat (some x) h1
      rw [hr] at h
      cases h
      exact ⟨rest1, rfl⟩

theorem bindLoop_head (lib : Lib) (f : Func) (params : List String) (ps : List param) :
    ∀ (rest out : List (Option Value)), (∀ p ∈ ps, 0 < p.arg) →
      bindLoop lib f params (none :: rest) ps = .ok out → ∃ rest1, out = none :: rest1 := by
  induction ps with
  | nil =>
    intro rest out _ h
    simp only [bindLoop] at h
    cases h
    exact ⟨rest, rfl⟩
  | cons p ps ih =>
    intro rest out hpos h
    simp only [bindLoop] at h
    cases hb : bindParam lib f params (none :: rest) p with
    | error e => rw [hb] at h; cases h
    | ok args1 =>
      rw [hb] at h
      obtain ⟨rest1, hr⟩ :=
        bindParam_head lib f params p (hpos p (List.mem_cons_self _ _)) rest args1 hb
      subst hr
      exact ih rest1 out (fun q hq => hpos q (List.mem_cons_of_mem _ hq)) h

/-- Position 0 of the argument list is never filled: the body position and every
binding made by `addRoute` are positive, so for a function with at least one
parameter the list handed to `Call` starts with the zero `reflect.Value`, `Call`
panics and the function does not run. -/
theorem call_skips_function_with_inputs (lib : Lib) (h : handler) (params : List String)
    (w : ResponseWriter) (r : Request) (f : Func) (hv : h.v = some f) (hin : f.ins ≠ [])
    (hpos : ∀ p ∈ h.params, 0 < p.arg) :
    (call lib h params w r).invoked = none ∧ (call lib h params w r).fault ≠ none ∧
      (call lib h params w r).w = w := by
  unfold call
  rw [hv]
  simp only
  cases hb : buildArgs lib f h params with
  | error e => simp
  | ok args =>
    have hhead : ∃ rest1, args = none :: rest1 := by
      unfold buildArgs at hb
      cases hins : f.ins with
      | nil => exact absurd hins hin
      | cons k ks =>
        rw [hins] at hb
        simp only [List.length_cons, List.replicate_succ] at hb
        cases hbody : bindBody f h.jsonBody (none :: List.replicate ks.length none) with
        | error e => rw [hbody] at hb; cases hb
        | ok args0 =>
          rw [hbody] at hb
          obtain ⟨rest0, hr0⟩ := bindBody_head f h.jsonBody _ args0 hbody
          subst hr0
          exact bindLoop_head lib f params h.params rest0 args hpos hb
    obtain ⟨rest1, hr⟩ := hhead
    subst hr
    simp [allValid]

/-! ## Lemmas on dispatch -/

theorem segments_ne_empty (s : String) : ∀ v ∈ segments s, v ≠ "" := by
  intro v hv
  simp only [segments, List.mem_filter, decide_eq_true_eq] at hv
  exact hv.2

theorem edges_Split (s : String) : edges (Split s) = (segments s).map edgeOf := rfl

theorem ServeHTTP_of_resolved (lib : Lib) (a : API) (req : Request) (n : path)
    (ps : List String) (h : Nat)
    (hw : serveLoop a.paths [] (Split req.Path) = some (n, ps))
    (hm : n.methods req.Method = some h) :
    ServeHTTP lib a req
      = { call lib (a.handlers h) ps ResponseWriter.fresh req with called := some (h, ps) } := by
  unfold ServeHTTP
  rw [hw]
  simp only [hm]

theorem To_entry (a : API) (r : Route) (f : Func) (es : List Edge) (m : String) :
    entry (r.To a f).1.paths es m
      = if es = edges (Split r.route) ∧ m ∈ effMethods r then some r.handler
        else entry a.paths es m := by
  rw [To_paths, entry_insertAt]

theorem To_nodeAt (a : API) (r : Route) (f : Func) :
    ∃ n, nodeAt (r.To a f).1.paths (edges (Split r.route)) = some n := by
  rw [To_paths]
  exact nodeAt_insertAt_self _ _ _ _

/-- Entries are never removed. -/
theorem run_entry_isSome (es : List Edge) (m : String) (ops : List Op) :
    ∀ (a : API) (h : Nat), entry a.paths es m = some h →
      ∃ h1, entry (run a ops).paths es m = some h1 := by
  induction ops with
  | nil => intro a h hh; exact ⟨h, hh⟩
  | cons op rest ih =>
    intro a h hh
    have h1 : ∃ h1, entry (step a op).paths es m = some h1 := by
      rw [step_paths]
      cases op with
      | Route s => exact ⟨h, hh⟩
      | Body r arg => exact ⟨h, hh⟩
      | To r f =>
        simp only [entry_insertAt]
        by_cases hc : es = edges (Split r.route) ∧ m ∈ effMethods r
        · exact ⟨r.handler, by simp [hc]⟩
        · exact ⟨h, by simp [hc, hh]⟩
    obtain ⟨h1, hh1⟩ := h1
    exact ih (step a op) h1 hh1

theorem entry_of_nodeAt (t n : path) (es : List Edge) (m : String)
    (hn : nodeAt t es = some n) : entry t es m = n.methods m := by
  simp [entry, hn]

theorem agrees_self (ps : List String) : agrees ps ps := by
  induction ps with
  | nil => trivial
  | cons p ps ih => exact ⟨Or.inr rfl, ih⟩

theorem captured_literal (ps : List String) (hlit : ∀ v ∈ ps, placeholderArg v = none) :
    captured ps ps = [] := by
  induction ps with
  | nil => rfl
  | cons p ps ih =>
    have hp : placeholderArg p = none := hlit p (List.mem_cons_self _ _)
    simp only [captured, hp, Option.isSome_none]
    exact ih (fun v hv => hlit v (List.mem_cons_of_mem _ hv))

theorem unshadowed_literal (ps : List String) :
    ∀ t : path, (∀ v ∈ ps, placeholderArg v = none) → unshadowed t ps ps := by
  induction ps with
  | nil => intro t _; trivial
  | cons p ps ih =>
    intro t hlit
    have hp : placeholderArg p = none := hlit p (List.mem_cons_self _ _)
    refine ⟨fun he => ?_, fun c _ => ih c (fun v hv => hlit v (List.mem_cons_of_mem _ hv))⟩
    simp [edgeOf, hp] at he

theorem map_edgeOf_literal_inj (l : List String) :
    ∀ l1 : List String, (∀ v ∈ l, placeholderArg v = none) →
      l1.map edgeOf = l.map edgeOf → l1 = l := by
  induction l with
  | nil =>
    intro l1 _ h
    cases l1 with
    | nil => rfl
    | cons v1 rest => simp at h
  | cons v vs ih =>
    intro l1 hlit h
    cases l1 with
    | nil => simp at h
    | cons v1 rest =>
      simp only [List.map, List.cons.injEq] at h
      have hv : placeholderArg v = none := hlit v (List.mem_cons_self _ _)
      have h1 : v1 = v := by
        have h2 := h.1
        simp only [edgeOf, hv] at h2
        cases hp1 : placeholderArg v1 with
        | some x => simp [hp1] at h2
        | none =>
          simp only [hp1] at h2
          exact Edge.lit.inj h2
      rw [h1, ih rest (fun v hv => hlit v (List.mem_cons_of_mem _ hv)) h.2]

theorem serveLoop_append (l1 l2 : List String) : ∀ (t : path) (acc : List String),
    serveLoop t acc (l1 ++ l2) = match serveLoop t acc l1 with
      | some (q, ps) => serveLoop q ps l2
      | none => none := by
  induction l1 with
  | nil => intro t acc; rfl
  | cons v vs ih =>
    intro t acc
    have hcons : (v :: vs) ++ l2 = v :: (vs ++ l2) := rfl
    rw [hcons]
    by_cases hv : v = ""
    · simp only [serveLoop, hv, if_true, ih]
    · simp only [serveLoop, hv, if_false]
      cases t.subpaths v with
      | some c => simp only [ih]
      | none =>
        cases t.parameter with
        | some c => simp only [ih]
        | none => rfl

/-- When the walk fails, it fails at some segment that has neither a literal child nor
a placeholder child at the node reached. -/
theorem serveLoop_none (l : List String) : ∀ (t : path) (acc : List String),
    (∀ v ∈ l, v ≠ "") → serveLoop t acc l = none →
    ∃ pre v post q ps, l = pre ++ v :: post ∧ serveLoop t acc pre = some (q, ps) ∧
      q.subpaths v = none ∧ q.parameter = none := by
  induction l with
  | nil => intro t acc _ h; simp [serveLoop] at h
  | cons v vs ih =>
    intro t acc hne h
    have hv : v ≠ "" := hne v (List.mem_cons_self _ _)
    have hvs : ∀ x ∈ vs, x ≠ "" := fun x hx => hne x (List.mem_cons_of_mem _ hx)
    simp only [serveLoop, hv, if_false] at h
    cases hs : t.subpaths v with
    | some c =>
      simp only [hs] at h
      obtain ⟨pre, x, post, q, ps, hl, hw, h1, h2⟩ := ih c acc hvs h
      refine ⟨v :: pre, x, post, q, ps, by rw [hl]; rfl, ?_, h1, h2⟩
      simp only [serveLoop, hv, if_false, hs, hw]
    | none =>
      simp only [hs] at h
      cases hp : t.parameter with
      | some c =>
        simp only [hp] at h
        obtain ⟨pre, x, post, q, ps, hl, hw, h1, h2⟩ := ih c (acc ++ [v]) hvs h
        refine ⟨v :: pre, x, post, q, ps, by rw [hl]; rfl, ?_, h1, h2⟩
        simp only [serveLoop, hv, if_false, hs, hp, hw]
      | none => exact ⟨[], v, vs, t, acc, rfl, rfl, hs, hp⟩

theorem frames_status (lib : Lib) (xs : List Value) : ∀ w : ResponseWriter,
    (frames lib w xs).status = w.status := by
  induction xs with
  | nil => intro w; rfl
  | cons d ds ih => intro w; simp only [frames, ih, ResponseWriter.Write]

theorem render_status (lib : Lib) (out : List Ret) (w : ResponseWriter) :
    (render lib out w).1.status = w.status ∨ (render lib out w).1.status = some 500 := by
  unfold render
  cases errorCheck out with
  | error e => left; rfl
  | ok b =>
    cases b with
    | true => right; rfl
    | false =>
      left
      cases out with
      | nil => rfl
      | cons o rest =>
        cases o with
        | val x =>
          simp only
          cases lib.marshal x <;> rfl
        | chan xs => simp only [frames_status, ResponseWriter.SetHeader]
        | openChan xs => simp only [frames_status, ResponseWriter.SetHeader]
        | sendOnlyChan => rfl

theorem call_status (lib : Lib) (h : handler) (params : List String) (w : ResponseWriter)
    (r : Request) :
    (call lib h params w r).w.status = w.status ∨
      (call lib h params w r).w.status = some 500 := by
  unfold call
  cases h.v with
  | none => left; rfl
  | some f =>
    simp only
    cases buildArgs lib f h params with
    | error e => left; rfl
    | ok args =>
      simp only
      cases allValid args with
      | none => left; rfl
      | some vals => exact render_status lib (f.fn vals) w

theorem call_of_invoked (lib : Lib) (h : handler) (params : List String)
    (w : ResponseWriter) (r : Request) (f : Func) (vals : List Value) (hv : h.v = some f)
    (hinv : (call lib h params w r).invoked = some vals) :
    call lib h params w r
      = ⟨none, some vals, (render lib (f.fn vals) w).1, (render lib (f.fn vals) w).2⟩ := by
  unfold call at hinv ⊢
  rw [hv] at hinv ⊢
  simp only at hinv ⊢
  cases hb : buildArgs lib f h params with
  | error e => rw [hb] at hinv; simp at hinv
  | ok args =>
    rw [hb] at hinv
    simp only at hinv ⊢
    cases ha : allValid args with
    | none => rw [ha] at hinv; simp at hinv
    | some vs =>
      rw [ha] at hinv
      simp only [Option.some.injEq] at hinv
      simp only [hinv]

theorem frames_eq (lib : Lib) (xs : List Value) : ∀ (js : List String) (w : ResponseWriter),
    xs.map lib.marshal = js.map some →
    frames lib w xs = { w with body := w.body ++ concatAll (js.map frame) } := by
  induction xs with
  | nil =>
    intro js w h
    cases js with
    | nil => simp [frames, concatAll]
    | cons j js => simp at h
  | cons d ds ih =>
    intro js w h
    cases js with
    | nil => simp at h
    | cons j js =>
      simp only [List.map, List.cons.injEq] at h
      rw [frames, ih js _ h.2]
      simp only [ResponseWriter.Write, h.1, Option.getD_some, concatAll, frame,
        String.append_assoc]

theorem head_val_of (out : List Ret) (x : Ret) (h : out.head? = some x) :
    ∃ rest, out = x :: rest := by
  cases out with
  | nil => simp at h
  | cons o rest =>
    simp only [List.head?, Option.some.injEq] at h
    exact ⟨rest, by rw [h]⟩

/-- The value `ParseInt` returns next to each error. -/
theorem ParseInt_error_value (s : String) :
    ((ParseInt s).2 = some .ErrSyntax → (ParseInt s).1 = 0) ∧
    ((ParseInt s).2 = some .ErrRange →
      (ParseInt s).1 = 2 ^ 63 - 1 ∨ (ParseInt s).1 = -(2 ^ 63)) := by
  unfold ParseInt parseIntChars
  by_cases hs : s.data = []
  · simp [hs]
  · simp only [hs, if_false]
    split
    · simp
    · split_ifs <;> simp
    · split_ifs <;> simp

theorem wrapInt_zero (k : Kind) (hk : k.bits ≠ 0) : wrapInt k.bits 0 = 0 := by
  cases k <;> first | exact absurd rfl hk | decide

theorem coerce_int (lib : Lib) (k : Kind) (params : List String) (i : Nat) (s : String)
    (hk : k.bits ≠ 0) (hs : params[i]? = some s) :
    coerce lib k params i = .ok (.int k (wrapInt k.bits (ParseInt s).1)) := by
  cases k <;> first | exact absurd rfl hk | simp only [coerce, hs]

theorem bindParam_ok (lib : Lib) (f : Func) (params : List String)
    (args out : List (Option Value)) (q : param)
    (h : bindParam lib f params args q = .ok out) :
    0 ≤ q.arg ∧ ∃ x, out = args.set q.arg.toNat (some x) := by
  unfold bindParam at h
  by_cases hneg : q.arg < 0
  · simp [hneg] at h
  · simp only [hneg, if_false] at h
    cases hk : f.ins[q.arg.toNat]? with
    | none => simp [hk] at h
    | some k =>
      simp only [hk] at h
      cases hc : coerce lib k params q.path with
      | error e => simp [hc] at h
      | ok x =>
        simp only [hc, Except.ok.injEq] at h
        exact ⟨by omega, x, h.symm⟩

/-- Bindings to other positions leave slot `n` as it is. -/
theorem bindLoop_preserve (lib : Lib) (f : Func) (params : List String) (n : Int)
    (hn : 0 ≤ n) (qs : List param) :
    ∀ (args out : List (Option Value)), bindLoop lib f params args qs = .ok out →
      (∀ q ∈ qs, q.arg ≠ n) → out[n.toNat]? = args[n.toNat]? := by
  induction qs with
  | nil =>
    intro args out h _
    simp only [bindLoop, Except.ok.injEq] at h
    rw [h]
  | cons q qs ih =>
    intro args out h hne
    simp only [bindLoop] at h
    cases hb : bindParam lib f params args q with
    | error e => simp [hb] at h
    | ok args1 =>
      simp only [hb] at h
      obtain ⟨hq0, x, hx⟩ := bindParam_ok lib f params args args1 q hb
      have hqn : q.arg ≠ n := hne q (List.mem_cons_self _ _)
      have hidx : q.arg.toNat ≠ n.toNat := by omega
      rw [ih args1 out h (fun q1 hq1 => hne q1 (List.mem_cons_of_mem _ hq1)), hx,
        List.getElem?_set_ne hidx]

/-- The slot of the only binding to a position holds what that binding stores. -/
theorem bindLoop_get (lib : Lib) (f : Func) (params : List String) (p : param) (k : Kind)
    (x : Value) (hp0 : 0 ≤ p.arg) (hk : f.ins[p.arg.toNat]? = some k)
    (hx : coerce lib k params p.path = .ok x) (qs : List param) :
    ∀ (args out : List (Option Value)), bindLoop lib f params args qs = .ok out →
      p ∈ qs → (∀ q ∈ qs, q.arg = p.arg → q = p) → p.arg.toNat < args.length →
      out[p.arg.toNat]? = some (some x) := by
  induction qs with
  | nil => intro args out _ hp; simp at hp
  | cons q qs ih =>
    intro args out h hp huniq hlen
    simp only [bindLoop] at h
    cases hb : bindParam lib f params args q with
    | error e => simp [hb] at h
    | ok args1 =>
      simp only [hb] at h
      obtain ⟨_, y, hy⟩ := bindParam_ok lib f params args args1 q hb
      have hlen1 : p.arg.toNat < args1.length := by rw [hy, List.length_set]; exact hlen
      by_cases hmem : p ∈ qs
      · exact ih args1 out h hmem
          (fun q1 hq1 => huniq q1 (List.mem_cons_of_mem _ hq1)) hlen1
      · have hqp : q = p := by
          rcases List.mem_cons.mp hp with h1 | h1
          · exact h1.symm
          · exact absurd h1 hmem
        subst hqp
        have hothers : ∀ q1 ∈ qs, q1.arg ≠ q.arg := by
          intro q1 hq1 heq
          have := huniq q1 (List.mem_cons_of_mem _ hq1) heq
          exact hmem (this ▸ hq1)
        rw [bindLoop_preserve lib f params q.arg hp0 qs args1 out h hothers]
        have hneg : ¬ q.arg < 0 := by omega
        simp only [bindParam, hneg, if_false, hk, hx, Except.ok.injEq] at hb
        rw [← hb, List.getElem?_set_self hlen]

theorem bindBody_length (f : Func) (jb : Int) (args out : List (Option Value))
    (h : bindBody f jb args = .ok out) : out.length = args.length := by
  unfold bindBody at h
  by_cases hjb : jb > 0
  · simp only [hjb, if_true] at h
    cases hk : f.ins[jb.toNat]? with
    | none => simp [hk] at h
    | some k =>
      simp only [hk, Except.ok.injEq] at h
      rw [← h, List.length_set]
  · simp only [hjb, if_false, Except.ok.injEq] at h
    rw [h]

theorem paramLoop_pos (l : List String) : ∀ (n : Nat) (acc : List param),
    (∀ p ∈ acc, 0 < p.arg) → ∀ p ∈ paramLoop n acc l, 0 < p.arg := by
  induction l with
  | nil => intro n acc hacc; exact hacc
  | cons v vs ih =>
    intro n acc hacc
    simp only [paramLoop]
    by_cases hv : v = ""
    · simp only [hv, if_true]
      exact ih n acc hacc
    · simp only [hv, if_false]
      cases placeholderArg v with
      | none => exact ih n acc hacc
      | some arg =>
        apply ih
        by_cases ha : arg > 0
        · simp only [ha, if_true]
          intro p hp
          rcases List.mem_append.mp hp with h1 | h1
          · exact hacc p h1
          · simp only [List.mem_singleton] at h1
            rw [h1]
            exact ha
        · simp only [ha, if_false]
          exact hacc

theorem To_handler (a : API) (r : Route) (f : Func) :
    (r.To a f).1.handlers r.handler
      = ⟨some f, paramLoop 0 [] (Split r.route), (a.handlers r.handler).jsonBody⟩ := by
  simp [Route.To, addRoute, API.setHandler]

/-- Right after `r.To(f)` with a function `f` that has at least one parameter, no
request can make the function run: whatever the collected parameters, `call` on the
route's handler ends in a panic before the function is entered and writes nothing. -/
theorem registered_function_with_inputs_never_runs (lib : Lib) (a : API) (r : Route)
    (f : Func) (hin : f.ins ≠ []) (params : List String) (w : ResponseWriter)
    (req : Request) :
    (call lib ((r.To a f).1.handlers r.handler) params w req).invoked = none ∧
    (call lib ((r.To a f).1.handlers r.handler) params w req).fault ≠ none ∧
    (call lib ((r.To a f).1.handlers r.handler) params w req).w = w := by
  apply call_skips_function_with_inputs lib _ params w req f
  · rw [To_handler]
  · exact hin
  · rw [To_handler]
    exact paramLoop_pos _ 0 [] (fun p hp => by simp at hp)

/-! ## C1 -/

/-- C1 (end-to-end path binding), at the program `a.Route("/hello/{1}").To(helloFunc)`
with `helloFunc = func(id int, name string) string` and the request `GET /hello/bob`:
the request resolves to the route's handler with the parameter list `["bob"]`, and
the argument list built for it holds the text `bob` at position 1, but position 0 is
left as the zero `reflect.Value`, so `Call` panics and the handler function is not
invoked. -/
theorem C1_bound_handler_is_not_invoked :
    (ServeHTTP decimalLib helloAPI ⟨"/hello/bob", "GET", ""⟩).called = some (0, ["bob"]) ∧
    buildArgs decimalLib helloFunc (helloAPI.handlers 0) ["bob"]
      = .ok [none, some (.string "bob")] ∧
    (ServeHTTP decimalLib helloAPI ⟨"/hello/bob", "GET", ""⟩).invoked = none ∧
    (ServeHTTP decimalLib helloAPI ⟨"/hello/bob", "GET", ""⟩).fault
      = some .zeroValueArgument :=
  ⟨by decide, rfl, by decide, by decide⟩

/-! ## C2 -/

/-- C2 (collected parameters) fails as stated: with `/a/{1}` and `/a/b` both
registered, the request `/a/b` agrees with the pattern `/a/{1}` on its literal
segment and carries the non-empty text `b` at the placeholder position, but the walk
follows the literal child `b` and collects nothing (instead of `["b"]`). -/
theorem C2_literal_sibling_shadows_placeholder :
    agrees (segments "/a/{1}") (segments "/a/b") ∧
    captured (segments "/a/{1}") (segments "/a/b") = ["b"] ∧
    (ServeHTTP decimalLib (twoRoutes "/a/{1}" oneFunc "/a/b" twoFunc)
        ⟨"/a/b", "GET", ""⟩).called = some (1, []) :=
  ⟨⟨Or.inr rfl, Or.inl rfl, trivial⟩, by decide, by decide⟩

/-- C2, amended: for every pattern registered by `r.To(f)` (in any router state, and
after any further calls `ops`), and every request path that agrees with the pattern
on its literal segments and whose segment at each placeholder position is not the
key of a literal child of the node reached there, the walk of `ServeHTTP` ends at
the pattern's terminal node and the collected parameter list is exactly the
request's texts at the placeholder positions, in left-to-right order; for a method
the route was registered under, `call` is entered with that list. -/
theorem C2_collected_parameters (lib : Lib) (a0 : API) (r : Route) (f : Func)
    (ops : List Op) (req : Request)
    (hag : agrees (segments r.route) (segments req.Path))
    (hun : unshadowed (run (r.To a0 f).1 ops).paths (segments r.route) (segments req.Path)) :
    (∃ n, nodeAt (run (r.To a0 f).1 ops).paths (edges (Split r.route)) = some n ∧
      serveLoop (run (r.To a0 f).1 ops).paths [] (Split req.Path)
        = some (n, captured (segments r.route) (segments req.Path))) ∧
    (req.Method ∈ effMethods r →
      ∃ h, (ServeHTTP lib (run (r.To a0 f).1 ops) req).called
        = some (h, captured (segments r.route) (segments req.Path))) := by
  obtain ⟨n0, hn0⟩ := To_nodeAt a0 r f
  obtain ⟨n, hn⟩ := run_nodeAt_mono _ ops _ n0 hn0
  have hwalk : serveLoop (run (r.To a0 f).1 ops).paths [] (Split req.Path)
      = some (n, captured (segments r.route) (segments req.Path)) := by
    have h1 := serveLoop_pattern (segments r.route) (segments req.Path)
      (run (r.To a0 f).1 ops).paths [] n (segments_ne_empty _)
      (by rw [← edges_Split]; exact hn) hag hun
    rw [serveLoop_filter]
    simpa [segments] using h1
  refine ⟨⟨n, hn, hwalk⟩, ?_⟩
  intro hm
  have he0 : entry (r.To a0 f).1.paths (edges (Split r.route)) req.Method
      = some r.handler := by
    rw [To_entry]
    simp [hm]
  obtain ⟨h, hh⟩ := run_entry_isSome _ _ ops _ _ he0
  rw [entry_of_nodeAt _ n _ _ hn] at hh
  exact ⟨h, by rw [ServeHTTP_of_resolved lib _ req n _ h hwalk hh]⟩

/-- C2, amended, at the router with `/{1}` and `/b` and the request `/c`. -/
theorem C2_collected_parameters_witness :
    (∃ n, nodeAt (run (Route.To New ⟨"/{1}", [], 0⟩ oneFunc).1
          [.To ⟨"/b", [], 1⟩ twoFunc]).paths (edges (Split "/{1}")) = some n ∧
      serveLoop (run (Route.To New ⟨"/{1}", [], 0⟩ oneFunc).1
          [.To ⟨"/b", [], 1⟩ twoFunc]).paths [] (Split "/c")
        = some (n, captured (segments "/{1}") (segments "/c"))) ∧
    ("GET" ∈ effMethods ⟨"/{1}", [], 0⟩ →
      ∃ h, (ServeHTTP decimalLib (run (Route.To New ⟨"/{1}", [], 0⟩ oneFunc).1
          [.To ⟨"/b", [], 1⟩ twoFunc]) ⟨"/c", "GET", ""⟩).called
        = some (h, captured (segments "/{1}") (segments "/c"))) :=
  C2_collected_parameters decimalLib New ⟨"/{1}", [], 0⟩ oneFunc
    [.To ⟨"/b", [], 1⟩ twoFunc] ⟨"/c", "GET", ""⟩
    ⟨Or.inl rfl, trivial⟩
    ⟨fun _ => rfl, fun _ _ => trivial⟩

/-! ## C3 -/

/-- C3 (literal routes): for every route `r` whose pattern has only literal segments,
registered by `r.To(f)` in any router state, and after any further calls `ops` none
of which registers that pattern (the same list of segments) for the request's
method, a request whose path is exactly that pattern (the same segments), with a
method the route was registered under, enters `call` with that route's handler and
an empty list of collected parameter values. -/
theorem C3_literal_route_matches (lib : Lib) (a0 : API) (r : Route) (f : Func)
    (ops : List Op) (req : Request)
    (hlit : ∀ v ∈ segments r.route, placeholderArg v = none)
    (hm : req.Method ∈ effMethods r)
    (hfree : ∀ r1 f1, Op.To r1 f1 ∈ ops → segments r1.route = segments r.route →
      req.Method ∉ effMethods r1)
    (hpath : segments req.Path = segments r.route) :
    (ServeHTTP lib (run (r.To a0 f).1 ops) req).called = some (r.handler, []) := by
  obtain ⟨n0, hn0⟩ := To_nodeAt a0 r f
  obtain ⟨n, hn⟩ := run_nodeAt_mono _ ops _ n0 hn0
  have hwalk : serveLoop (run (r.To a0 f).1 ops).paths [] (Split req.Path) = some (n, []) := by
    have h1 := serveLoop_pattern (segments r.route) (segments r.route)
      (run (r.To a0 f).1 ops).paths [] n (segments_ne_empty _)
      (by rw [← edges_Split]; exact hn) (agrees_self _) (unshadowed_literal _ _ hlit)
    rw [captured_literal _ hlit] at h1
    rw [serveLoop_filter]
    have h2 : (Split req.Path).filter (fun v => v ≠ "") = segments r.route := hpath
    rw [h2]
    simpa using h1
  have he0 : entry (r.To a0 f).1.paths (edges (Split r.route)) req.Method
      = some r.handler := by
    rw [To_entry]
    simp [hm]
  have he : entry (run (r.To a0 f).1 ops).paths (edges (Split r.route)) req.Method
      = some r.handler := by
    rw [run_entry_frame _ _ ops _ ?_]
    · exact he0
    · intro r1 f1 hmem hes
      apply hfree r1 f1 hmem
      rw [edges_Split, edges_Split] at hes
      exact map_edgeOf_literal_inj _ _ hlit hes
  rw [entry_of_nodeAt _ n _ _ hn] at he
  rw [ServeHTTP_of_resolved lib _ req n _ r.handler hwalk he]

/-- C3 at the route `/a/b` (all methods), followed by the registration of `/a/{1}`,
and the request `GET a//b/`. -/
theorem C3_literal_route_matches_witness :
    (ServeHTTP decimalLib (run (Route.To New ⟨"/a/b", [], 0⟩ oneFunc).1
        [.To ⟨"/a/{1}", [], 1⟩ twoFunc]) ⟨"a//b/", "GET", ""⟩).called = some (0, []) :=
  C3_literal_route_matches decimalLib New ⟨"/a/b", [], 0⟩ oneFunc
    [.To ⟨"/a/{1}", [], 1⟩ twoFunc] ⟨"a//b/", "GET", ""⟩
    (by decide) (by decide)
    (by
      intro r1 f1 hmem hseg
      simp only [List.mem_singleton, Op.To.injEq] at hmem
      rw [hmem.1] at hseg
      exact absurd hseg (by decide))
    (by decide)

/-! ## C4 -/

/-- C4 (literal precedence): whenever a node has both a literal child keyed `s` and a
placeholder child, the walk of `ServeHTTP` on a request segment equal to `s`
continues from the literal child with the collected parameters unchanged; and with
`/a/b` and `/a/{1}` registered in either order, the request `GET /a/b` runs the
handler of `/a/b` (address 0 and result 1 when registered first, address 1 and
result 2 when registered second) with no parameters. -/
theorem C4_literal_precedence (p c q : path) (s : String) (acc vs : List String)
    (hs : s ≠ "") (hc : p.subpaths s = some c) (_hq : p.parameter = some q) :
    serveLoop p acc (s :: vs) = serveLoop c acc vs ∧
    ServeHTTP decimalLib (twoRoutes "/a/b" oneFunc "/a/{1}" twoFunc) ⟨"/a/b", "GET", ""⟩
      = ⟨some (0, []), some [], ⟨none, [], "1\n"⟩, none⟩ ∧
    ServeHTTP decimalLib (twoRoutes "/a/{1}" oneFunc "/a/b" twoFunc) ⟨"/a/b", "GET", ""⟩
      = ⟨some (1, []), some [], ⟨none, [], "2\n"⟩, none⟩ := by
  refine ⟨?_, by decide, by decide⟩
  simp only [serveLoop, hs, if_false, hc]

/-- C4 at a node with the literal child `b` and a placeholder child. -/
theorem C4_literal_precedence_witness :
    serveLoop (.mk (put (fun _ => none) "b" newPath) (some newPath) (fun _ => none))
        ["a"] ["b", "c"]
      = serveLoop newPath ["a"] ["c"] :=
  (C4_literal_precedence (.mk (put (fun _ => none) "b" newPath) (some newPath) (fun _ => none))
    newPath newPath "b" ["a"] ["c"] (by decide) rfl rfl).1

/-! ## C5 -/

/-- C5 (404): `ServeHTTP` answers with status 404, writes no body and does not invoke
any handler if and only if either some request segment has neither a matching
literal child nor a placeholder child at the node the walk has reached, or the walk
consumes every segment and the terminal node has no handler stored under the
request method. -/
theorem C5_not_found_iff (lib : Lib) (a : API) (req : Request) :
    ((ServeHTTP lib a req).w.status = some 404 ∧ (ServeHTTP lib a req).w.body = "" ∧
        (ServeHTTP lib a req).invoked = none) ↔
      ((∃ pre v post q ps, segments req.Path = pre ++ v :: post ∧
          serveLoop a.paths [] pre = some (q, ps) ∧
          q.subpaths v = none ∧ q.parameter = none) ∨
       (∃ q ps, serveLoop a.paths [] (segments req.Path) = some (q, ps) ∧
          q.methods req.Method = none)) := by
  have hseg : serveLoop a.paths [] (Split req.Path)
      = serveLoop a.paths [] (segments req.Path) := serveLoop_filter _ _ _
  constructor
  · intro hl
    cases hw : serveLoop a.paths [] (segments req.Path) with
    | none =>
      left
      exact serveLoop_none _ _ _ (segments_ne_empty _) hw
    | some res =>
      obtain ⟨q, ps⟩ := res
      cases hm : q.methods req.Method with
      | none => right; exact ⟨q, ps, rfl, hm⟩
      | some h =>
        exfalso
        rw [ServeHTTP_of_resolved lib a req q ps h (hseg.trans hw) hm] at hl
        have := call_status lib (a.handlers h) ps ResponseWriter.fresh req
        rcases this with h1 | h1
        · rw [h1] at hl; simp [ResponseWriter.fresh] at hl
        · rw [h1] at hl; simp at hl
  · intro hr
    have hnf : ServeHTTP lib a req = notFound := by
      unfold ServeHTTP
      rw [hseg]
      rcases hr with ⟨pre, v, post, q, ps, hl, hw, h1, h2⟩ | ⟨q, ps, hw, hm⟩
      · have hv : v ≠ "" := segments_ne_empty req.Path v (by rw [hl]; simp)
        rw [hl, serveLoop_append, hw]
        simp only [serveLoop, hv, if_false, h1, h2]
      · rw [hw]
        simp only [hm]
    rw [hnf]
    exact ⟨rfl, rfl, rfl⟩

/-! ## C6 -/

/-- For every handler whose function runs and returns two values of which the second
is a non-nil value of a nilable type implementing `error`, whatever the first value
is (a plain value or a channel), the response is status 500 with an empty body and
no header set, and the request ends without a panic. -/
theorem nilable_error_return_gives_500 (lib : Lib) (h : handler) (params : List String)
    (r : Request) (f : Func) (vals : List Value) (first : Ret) (e : String)
    (hv : h.v = some f)
    (hinv : (call lib h params ResponseWriter.fresh r).invoked = some vals)
    (hout : f.fn vals = [first, .val (.error (some e))]) :
    (call lib h params ResponseWriter.fresh r).w = ⟨some 500, [], ""⟩ ∧
    (call lib h params ResponseWriter.fresh r).fault = none := by
  rw [call_of_invoked lib h params _ r f vals hv hinv, hout]
  exact ⟨rfl, rfl⟩

/-- The 500 response at the function `func() (int, error) { return 1, errors.New("boom") }`. -/
theorem nilable_error_return_gives_500_example :
    (call decimalLib ⟨some failingFunc, [], 0⟩ [] ResponseWriter.fresh ⟨"/", "GET", ""⟩).w
      = ⟨some 500, [], ""⟩ ∧
    (call decimalLib ⟨some failingFunc, [], 0⟩ [] ResponseWriter.fresh ⟨"/", "GET", ""⟩).fault
      = none :=
  nilable_error_return_gives_500 decimalLib ⟨some failingFunc, [], 0⟩ [] ⟨"/", "GET", ""⟩
    failingFunc [] (.val (.int .Int 1)) "boom" rfl rfl rfl

/-- C7 (error return), at the program `a.Route("/e").To(structErrFunc)` with
`structErrFunc = func() (int, structErr)`, `structErr` a struct type with an `Error`
method, and the request `GET /e`: the request resolves to the handler and the
function runs and returns `(1, structErr{})`, whose second value is an error that is
not nil; `out[1].IsNil()` then panics, because a struct has no nil value, and no
status is written (the response is not the 500 one). -/
theorem C7_struct_error_panics_without_500 :
    ServeHTTP decimalLib structErrAPI ⟨"/e", "GET", ""⟩
      = ⟨some (0, []), some [], ⟨none, [], ""⟩, some .isNilOfNonNilable⟩ ∧
    structErrFunc.fn [] = [.val (.int .Int 1), .val (.errorValue 0)] ∧
    (ServeHTTP decimalLib structErrAPI ⟨"/e", "GET", ""⟩).w.status ≠ some 500 :=
  ⟨by decide, rfl, by decide⟩

/-! ## C8 -/

/-- C8 (single value) fails as stated: the function `func() int { return 1 }` runs,
the JSON encoding of its result is `1`, and the body written is `1` followed by a
newline (`json.Encoder.Encode` ends every value with a newline). -/
theorem C8_body_ends_with_newline :
    (call decimalLib ⟨some oneFunc, [], 0⟩ [] ResponseWriter.fresh ⟨"/", "GET", ""⟩).invoked
      = some [] ∧
    oneFunc.fn [] = [.val (.int .Int 1)] ∧
    decimalLib.marshal (.int .Int 1) = some "1" ∧
    (call decimalLib ⟨some oneFunc, [], 0⟩ [] ResponseWriter.fresh ⟨"/", "GET", ""⟩).w.body
      = "1\n" ∧
    (call decimalLib ⟨some oneFunc, [], 0⟩ [] ResponseWriter.fresh ⟨"/", "GET", ""⟩).w.body
      ≠ "1" :=
  ⟨by decide, rfl, by decide, by decide, by decide⟩

/-- C8, amended: for every handler whose function runs and returns a single
non-channel value `x`, alone or with a nil error as second value, where `x` has the
JSON encoding `js`, the bytes written as the response body are exactly `js` followed
by one newline character; no status and no header is set and the request ends
without a panic. -/
theorem C8_single_value_body (lib : Lib) (h : handler) (params : List String) (r : Request)
    (f : Func) (vals : List Value) (x : Value) (js : String) (hv : h.v = some f)
    (hinv : (call lib h params ResponseWriter.fresh r).invoked = some vals)
    (hout : f.fn vals = [.val x] ∨ f.fn vals = [.val x, .val (.error none)])
    (hjs : lib.marshal x = some js) :
    (call lib h params ResponseWriter.fresh r).w = ⟨none, [], js ++ "\n"⟩ ∧
    (call lib h params ResponseWriter.fresh r).fault = none := by
  rw [call_of_invoked lib h params _ r f vals hv hinv]
  rcases hout with hout | hout
  · rw [hout]
    simp only [render, errorCheck, hjs, ResponseWriter.Write, ResponseWriter.fresh,
      String.empty_append, and_self]
  · rw [hout]
    simp only [render, errorCheck, hjs, ResponseWriter.Write, ResponseWriter.fresh,
      String.empty_append, and_self]

/-- C8, amended, at the function `func() int { return 1 }`. -/
theorem C8_single_value_body_witness :
    (call decimalLib ⟨some oneFunc, [], 0⟩ [] ResponseWriter.fresh ⟨"/", "GET", ""⟩).w
      = ⟨none, [], "1" ++ "\n"⟩ ∧
    (call decimalLib ⟨some oneFunc, [], 0⟩ [] ResponseWriter.fresh ⟨"/", "GET", ""⟩).fault
      = none :=
  C8_single_value_body decimalLib ⟨some oneFunc, [], 0⟩ [] ⟨"/", "GET", ""⟩ oneFunc []
    (.int .Int 1) "1" rfl rfl (Or.inl rfl) rfl

/-! ## C9 -/

/-- C9 (streaming) fails as stated: the function `func() (chan int, error)` that
returns a channel producing 1, 2, 3 and then closed, together with a non-nil error,
leads to status 500 with no `Content-Type` header and an empty body, not to the
three frames; and for a result of a send-only channel type `chan<- int` the header is
set and `out[0].Recv()` panics before any frame is written. -/
theorem C9_channel_with_error_is_not_streamed :
    (call decimalLib ⟨some streamErrFunc, [], 0⟩ [] ResponseWriter.fresh
      ⟨"/", "GET", ""⟩).invoked = some [] ∧
    streamErrFunc.fn []
      = [.chan [.int .Int 1, .int .Int 2, .int .Int 3], .val (.error (some "boom"))] ∧
    (call decimalLib ⟨some streamErrFunc, [], 0⟩ [] ResponseWriter.fresh ⟨"/", "GET", ""⟩).w
      = ⟨some 500, [], ""⟩ ∧
    call decimalLib ⟨some sendOnlyFunc, [], 0⟩ [] ResponseWriter.fresh ⟨"/", "GET", ""⟩
      = ⟨none, some [], ⟨none, [("Content-Type", "text/event-stream")], ""⟩,
          some .recvOnSendOnly⟩ :=
  ⟨by decide, rfl, by decide, by decide⟩

/-- C9, amended: for every handler whose function runs and returns, alone or with a
nil error as second value, a channel that can be received from which produces the
values `xs` with JSON encodings `js` and is then closed, the response has the header
`Content-Type: text/event-stream`, no status set, and its body is exactly the
concatenation, in production order, of the frames `data: ` + JSON + two newlines
(the empty body when nothing is produced); for the encodings `1`, `2`, `3` that is
`data: 1\n\ndata: 2\n\ndata: 3\n\n`. -/
theorem C9_stream_body (lib : Lib) (h : handler) (params : List String) (r : Request)
    (f : Func) (vals xs : List Value) (js : List String) (hv : h.v = some f)
    (hinv : (call lib h params ResponseWriter.fresh r).invoked = some vals)
    (hout : f.fn vals = [.chan xs] ∨ f.fn vals = [.chan xs, .val (.error none)])
    (hjs : xs.map lib.marshal = js.map some) :
    (call lib h params ResponseWriter.fresh r).w
      = ⟨none, [("Content-Type", "text/event-stream")], concatAll (js.map frame)⟩ ∧
    (call lib h params ResponseWriter.fresh r).fault = none ∧
    concatAll (([] : List String).map frame) = "" ∧
    concatAll (["1", "2", "3"].map frame) = "data: 1\n\ndata: 2\n\ndata: 3\n\n" := by
  rw [call_of_invoked lib h params _ r f vals hv hinv]
  have hr : render lib (f.fn vals) ResponseWriter.fresh
      = (⟨none, [("Content-Type", "text/event-stream")], concatAll (js.map frame)⟩, none) := by
    rcases hout with hout | hout
    · rw [hout]
      simp only [render, errorCheck, frames_eq lib xs js _ hjs]
      simp [ResponseWriter.SetHeader, ResponseWriter.fresh]
    · rw [hout]
      simp only [render, errorCheck, frames_eq lib xs js _ hjs]
      simp [ResponseWriter.SetHeader, ResponseWriter.fresh]
  rw [hr]
  exact ⟨rfl, rfl, by decide, by decide⟩

/-- C9, amended, at the function whose channel produces 1, 2, 3. -/
theorem C9_stream_body_witness :
    (call decimalLib ⟨some countFunc, [], 0⟩ [] ResponseWriter.fresh ⟨"/", "GET", ""⟩).w
      = ⟨none, [("Content-Type", "text/event-stream")],
          concatAll (["1", "2", "3"].map frame)⟩ ∧
    (call decimalLib ⟨some countFunc, [], 0⟩ [] ResponseWriter.fresh ⟨"/", "GET", ""⟩).fault
      = none ∧
    concatAll (([] : List String).map frame) = "" ∧
    concatAll (["1", "2", "3"].map frame) = "data: 1\n\ndata: 2\n\ndata: 3\n\n" :=
  C9_stream_body decimalLib ⟨some countFunc, [], 0⟩ [] ⟨"/", "GET", ""⟩ countFunc []
    [.int .Int 1, .int .Int 2, .int .Int 3] ["1", "2", "3"] rfl rfl (Or.inl rfl) (by decide)

/-! ## C11 -/

/-- C11 (body binding), at the program `r := a.Route("/n"); r.Body(1); r.To(bodyFunc)`
with `bodyFunc = func(x int, n int) int` and the request `POST /n` with body `7`
(valid JSON for `int`): the body position of the handler is 1 and the request
resolves to it, but the slot of argument 1 is left at the zero value 0 (`Decode` is
given a copy of the slot, not a pointer to it), and position 0 is the zero
`reflect.Value`, so `Call` panics and the handler function is not invoked. -/
theorem C11_body_is_not_bound :
    (bodyAPI.handlers 0).jsonBody = 1 ∧
    (ServeHTTP decimalLib bodyAPI ⟨"/n", "POST", "7"⟩).called = some (0, []) ∧
    buildArgs decimalLib bodyFunc (bodyAPI.handlers 0) [] = .ok [none, some (.int .Int 0)] ∧
    (ServeHTTP decimalLib bodyAPI ⟨"/n", "POST", "7"⟩).invoked = none ∧
    (ServeHTTP decimalLib bodyAPI ⟨"/n", "POST", "7"⟩).fault = some .zeroValueArgument :=
  ⟨by decide, by decide, rfl, by decide, by decide⟩

/-! ## Lemmas on slashes -/

theorem paramLoop_filter (l : List String) : ∀ (n : Nat) (acc : List param),
    paramLoop n acc l = paramLoop n acc (l.filter (fun v => v ≠ "")) := by
  induction l with
  | nil => intro n acc; rfl
  | cons v vs ih =>
    intro n acc
    by_cases hv : v = ""
    · simp [paramLoop, hv, ih n acc]
    · simp only [paramLoop, hv, if_false, List.filter, ne_eq, not_false_eq_true, decide_True]
      cases placeholderArg v with
      | some arg => simp only [ih]
      | none => simp only [ih]

/-- What `r.To(f)` does to the router state, in terms of the segments of the pattern. -/
theorem To_eq (a : API) (r : Route) (f : Func) :
    (r.To a f).1
      = ⟨insertAt (effMethods r) r.handler a.paths ((segments r.route).map edgeOf),
         fun j => if j = r.handler then
             ⟨some f, paramLoop 0 [] (segments r.route), (a.handlers r.handler).jsonBody⟩
           else a.handlers j,
         a.next⟩ := by
  have hp : paramLoop 0 [] (Split r.route) = paramLoop 0 [] (segments r.route) :=
    paramLoop_filter _ _ _
  have hfun : (r.To a f).1.handlers
      = fun j => if j = r.handler then
             ⟨some f, paramLoop 0 [] (segments r.route), (a.handlers r.handler).jsonBody⟩
           else a.handlers j := by
    funext j
    by_cases hj : j = r.handler
    · simp [Route.To, addRoute, API.setHandler, hj, hp]
    · simp [Route.To, addRoute, API.setHandler, hj]
  have hpaths := To_paths a r f
  rw [edges_Split] at hpaths
  have hnext : (r.To a f).1.next = a.next := rfl
  cases hA : (r.To a f).1 with
  | mk paths handlers next =>
    rw [hA] at hfun hpaths hnext
    simp only at hfun hpaths hnext
    rw [hfun, hpaths, hnext]

theorem ServeHTTP_eq_of_segments (lib : Lib) (a : API) (p1 p2 m b : String)
    (h : segments p1 = segments p2) :
    ServeHTTP lib a ⟨p1, m, b⟩ = ServeHTTP lib a ⟨p2, m, b⟩ := by
  have h1 : (Split p1).filter (fun v => v ≠ "") = (Split p2).filter (fun v => v ≠ "") := h
  unfold ServeHTTP
  simp only
  rw [serveLoop_filter (Split p1), serveLoop_filter (Split p2), h1]
  rfl

/-! ## C12 -/

/-- C12 (slash insignificance): registration and matching depend only on the list of
non-empty segments. For two pattern strings with the same non-empty segments,
registering either one (same methods, same handler object, same function) yields
the same router state, in particular the same path tree; for two request paths with
the same non-empty segments (same method and body), `ServeHTTP` has the same
outcome: the same handler with the same collected parameters, or 404 for both. -/
theorem C12_slash_insignificance (lib : Lib) (a : API) (s1 s2 : String)
    (ms : List String) (h : Nat) (f : Func) (p1 p2 m b : String)
    (hpat : segments s1 = segments s2) (hreq : segments p1 = segments p2) :
    (Route.To a ⟨s1, ms, h⟩ f).1 = (Route.To a ⟨s2, ms, h⟩ f).1 ∧
    (Route.To a ⟨s1, ms, h⟩ f).1.paths = (Route.To a ⟨s2, ms, h⟩ f).1.paths ∧
    ServeHTTP lib a ⟨p1, m, b⟩ = ServeHTTP lib a ⟨p2, m, b⟩ ∧
    (ServeHTTP lib a ⟨p1, m, b⟩).called = (ServeHTTP lib a ⟨p2, m, b⟩).called := by
  have hstate : (Route.To a ⟨s1, ms, h⟩ f).1 = (Route.To a ⟨s2, ms, h⟩ f).1 := by
    rw [To_eq, To_eq]
    simp only [effMethods, hpat]
  have hserve := ServeHTTP_eq_of_segments lib a p1 p2 m b hreq
  exact ⟨hstate, by rw [hstate], hserve, by rw [hserve]⟩

/-- C12 at the patterns `/a/{1}/` and `a//{1}` and the request paths `/a/b` and
`//a/b/`, on the router with `/x` and `/a/b`. -/
theorem C12_slash_insignificance_witness :
    (Route.To (twoRoutes "/x" oneFunc "/a/b" twoFunc) ⟨"/a/{1}/", [], 2⟩ oneFunc).1
      = (Route.To (twoRoutes "/x" oneFunc "/a/b" twoFunc) ⟨"a//{1}", [], 2⟩ oneFunc).1 ∧
    (Route.To (twoRoutes "/x" oneFunc "/a/b" twoFunc) ⟨"/a/{1}/", [], 2⟩ oneFunc).1.paths
      = (Route.To (twoRoutes "/x" oneFunc "/a/b" twoFunc) ⟨"a//{1}", [], 2⟩ oneFunc).1.paths ∧
    ServeHTTP decimalLib (twoRoutes "/x" oneFunc "/a/b" twoFunc) ⟨"/a/b", "GET", ""⟩
      = ServeHTTP decimalLib (twoRoutes "/x" oneFunc "/a/b" twoFunc) ⟨"//a/b/", "GET", ""⟩ ∧
    (ServeHTTP decimalLib (twoRoutes "/x" oneFunc "/a/b" twoFunc) ⟨"/a/b", "GET", ""⟩).called
      = (ServeHTTP decimalLib (twoRoutes "/x" oneFunc "/a/b" twoFunc)
          ⟨"//a/b/", "GET", ""⟩).called :=
  C12_slash_insignificance decimalLib (twoRoutes "/x" oneFunc "/a/b" twoFunc)
    "/a/{1}/" "a//{1}" [] 2 oneFunc "/a/b" "//a/b/" "GET" "" (by decide) (by decide)

/-! ## C13 -/

/-- C13 (method set): registering a route with an empty method set stores its handler
at the pattern's terminal node under each of the nine names CONNECT, DELETE, GET,
HEAD, OPTIONS, PATCH, POST, PUT, TRACE and leaves the entry of every other method
name at that node as it was; registering with a non-empty method set stores it
under each listed name and leaves the entry of every other name as it was. The
terminal node exists afterwards. On a new router, `/x` registered with no methods
is stored under all nine names and not under `PROPFIND`; registered with `GET` and
`POST` it is stored under these two and not under `PUT`. -/
theorem C13_method_set (a : API) (r : Route) (f : Func) :
    (∃ n, nodeAt (r.To a f).1.paths (edges (Split r.route)) = some n) ∧
    (r.methods = [] →
      (∀ m ∈ ["CONNECT", "DELETE", "GET", "HEAD", "OPTIONS", "PATCH", "POST", "PUT", "TRACE"],
        entry (r.To a f).1.paths (edges (Split r.route)) m = some r.handler) ∧
      (∀ m ∉ ["CONNECT", "DELETE", "GET", "HEAD", "OPTIONS", "PATCH", "POST", "PUT", "TRACE"],
        entry (r.To a f).1.paths (edges (Split r.route)) m
          = entry a.paths (edges (Split r.route)) m)) ∧
    (r.methods ≠ [] →
      (∀ m ∈ r.methods, entry (r.To a f).1.paths (edges (Split r.route)) m = some r.handler) ∧
      (∀ m ∉ r.methods, entry (r.To a f).1.paths (edges (Split r.route)) m
          = entry a.paths (edges (Split r.route)) m)) ∧
    allMethods.map (entry (Route.To New ⟨"/x", [], 0⟩ oneFunc).1.paths (edges (Split "/x")))
      = allMethods.map (fun _ => some 0) ∧
    entry (Route.To New ⟨"/x", [], 0⟩ oneFunc).1.paths (edges (Split "/x")) "PROPFIND" = none ∧
    ["GET", "POST", "PUT"].map
        (entry (Route.To New ⟨"/x", ["GET", "POST"], 0⟩ oneFunc).1.paths (edges (Split "/x")))
      = [some 0, some 0, none] := by
  refine ⟨To_nodeAt a r f, ?_, ?_, by decide, by decide, by decide⟩
  · intro hempty
    have he : effMethods r = allMethods := by simp [effMethods, hempty]
    constructor
    · intro m hm
      have hm1 : m ∈ allMethods := hm
      rw [To_entry, he]
      simp only [true_and]
      rw [if_pos hm1]
    · intro m hm
      have hm1 : m ∉ allMethods := hm
      rw [To_entry, he]
      simp only [true_and]
      rw [if_neg hm1]
  · intro hne
    have he : effMethods r = r.methods := by
      have : r.methods.length ≠ 0 := fun h0 => hne (List.length_eq_zero.mp h0)
      simp [effMethods, this]
    constructor
    · intro m hm
      rw [To_entry, he]
      simp [hm]
    · intro m hm
      rw [To_entry, he]
      simp [hm]

/-! ## C14 -/

/-- C14 (no backtracking): if at the node the walk has reached the request segment
equals a literal child's key, the walk commits to that literal child; when the rest
of the request fails beneath it (a later segment has no child there, or the terminal
node has no handler for the method) the outcome is the 404 one, even when the
node's placeholder child would have led the same request to a handler. With the
routes `/a/b` and `/a/{1}/c`, the request `GET /a/b/c` yields 404. -/
theorem C14_no_backtracking (lib : Lib) (a : API) (req : Request) (pre vs : List String)
    (s : String) (p c q n1 : path) (acc ps1 : List String) (h1 : Nat)
    (hsegs : segments req.Path = pre ++ s :: vs)
    (hpre : serveLoop a.paths [] pre = some (p, acc))
    (hc : p.subpaths s = some c)
    (hfail : serveLoop c acc vs = none ∨
      ∃ n ps, serveLoop c acc vs = some (n, ps) ∧ n.methods req.Method = none)
    (_hq : p.parameter = some q)
    (_halt : serveLoop q (acc ++ [s]) vs = some (n1, ps1) ∧ n1.methods req.Method = some h1) :
    ServeHTTP lib a req = notFound ∧
    (ServeHTTP lib a req).w = ⟨some 404, [], ""⟩ ∧
    ServeHTTP decimalLib (twoRoutes "/a/b" oneFunc "/a/{1}/c" twoFunc) ⟨"/a/b/c", "GET", ""⟩
      = notFound := by
  have hs : s ≠ "" := segments_ne_empty req.Path s (by rw [hsegs]; simp)
  have hwalk : serveLoop a.paths [] (Split req.Path) = serveLoop c acc vs := by
    have h1 : (Split req.Path).filter (fun v => v ≠ "") = pre ++ s :: vs := hsegs
    rw [serveLoop_filter, h1, serveLoop_append, hpre]
    simp only [serveLoop, hs, if_false, hc]
  have hnf : ServeHTTP lib a req = notFound := by
    unfold ServeHTTP
    rw [hwalk]
    rcases hfail with h | ⟨n, ps, h, hm⟩
    · rw [h]
    · rw [h]
      simp only [hm]
  refine ⟨hnf, by rw [hnf]; rfl, by decide⟩

/-- C14 at the routes `/a/b` and `/a/{1}/c` and the request `GET /a/b/c`: the walk
takes the literal child `b` of the node at `a`, which has no child for `c`, while
the placeholder child of that node leads `c` to the handler of `/a/{1}/c`. -/
theorem C14_no_backtracking_witness :
    ServeHTTP decimalLib (twoRoutes "/a/b" oneFunc "/a/{1}/c" twoFunc) ⟨"/a/b/c", "GET", ""⟩
      = notFound ∧
    (ServeHTTP decimalLib (twoRoutes "/a/b" oneFunc "/a/{1}/c" twoFunc)
      ⟨"/a/b/c", "GET", ""⟩).w = ⟨some 404, [], ""⟩ ∧
    ServeHTTP decimalLib (twoRoutes "/a/b" oneFunc "/a/{1}/c" twoFunc) ⟨"/a/b/c", "GET", ""⟩
      = notFound :=
  C14_no_backtracking decimalLib (twoRoutes "/a/b" oneFunc "/a/{1}/c" twoFunc)
    ⟨"/a/b/c", "GET", ""⟩ ["a"] ["c"] "b" _ _ _ _ _ ["b"] 1
    (by decide) rfl rfl (Or.inl rfl) rfl ⟨rfl, rfl⟩

/-! ## Lemmas on `strconv` -/

theorem maxUint64_eq : maxUint64 = 18446744073709551615 := by decide

theorem parseUintLoop_nil (n : Nat) : parseUintLoop n [] = .ok n := by
  rw [parseUintLoop]

theorem parseUintLoop_cons (n : Nat) (c : Char) (cs : List Char) :
    parseUintLoop n (c :: cs) =
      if '0' ≤ c ∧ c ≤ '9' then
        if n ≥ 1844674407370955162 then .error .ErrRange
        else if n * 10 + (c.toNat - '0'.toNat) > 18446744073709551615 then .error .ErrRange
        else parseUintLoop (n * 10 + (c.toNat - '0'.toNat)) cs
      else .error .ErrSyntax := by
  rw [parseUintLoop, maxUint64_eq]

theorem digitsValue_ge (cs : List Char) : ∀ n : Nat, n ≤ digitsValue n cs := by
  induction cs with
  | nil => intro n; exact Nat.le_refl n
  | cons c cs ih =>
    intro n
    have h1 := ih (n * 10 + (c.toNat - '0'.toNat))
    have h2 : n ≤ n * 10 + (c.toNat - '0'.toNat) :=
      Nat.le_trans (Nat.le_mul_of_pos_right n (by decide)) (Nat.le_add_right _ _)
    exact Nat.le_trans h2 h1

/-- The digit loop of `ParseUint` succeeds exactly on strings of digits whose value
fits 64 bits, and returns that value. -/
theorem parseUintLoop_ok_iff (cs : List Char) :
    ∀ (n m : Nat), n ≤ 18446744073709551615 →
    (parseUintLoop n cs = .ok m ↔
      (∀ c ∈ cs, isDigit c) ∧ digitsValue n cs = m ∧ m ≤ 18446744073709551615) := by
  induction cs with
  | nil =>
    intro n m hn
    rw [parseUintLoop_nil]
    constructor
    · intro h
      cases h
      exact ⟨fun c hc => absurd hc (List.not_mem_nil c), rfl, hn⟩
    · intro h
      have h1 : n = m := h.2.1
      rw [h1]
  | cons c cs ih =>
    intro n m hn
    have hge := digitsValue_ge cs (n * 10 + (c.toNat - '0'.toNat))
    have hval : digitsValue n (c :: cs) = digitsValue (n * 10 + (c.toNat - '0'.toNat)) cs := rfl
    rw [parseUintLoop_cons, hval]
    obtain ⟨d, hdd⟩ : ∃ d, d = c.toNat - '0'.toNat := ⟨_, rfl⟩
    rw [← hdd] at hge ⊢
    by_cases hd : '0' ≤ c ∧ c ≤ '9'
    · rw [if_pos hd]
      by_cases hcut : n ≥ 1844674407370955162
      · rw [if_pos hcut]
        constructor
        · intro h; cases h
        · intro h
          have h2 := h.2.1
          have h3 := h.2.2
          omega
      · rw [if_neg hcut]
        by_cases hov : n * 10 + d > 18446744073709551615
        · rw [if_pos hov]
          constructor
          · intro h; cases h
          · intro h
            have h2 := h.2.1
            have h3 := h.2.2
            omega
        · rw [if_neg hov, ih (n * 10 + d) m (by omega)]
          constructor
          · intro h
            refine ⟨?_, h.2⟩
            intro x hx
            rcases List.mem_cons.mp hx with h1 | h1
            · rw [h1]; exact hd
            · exact h.1 x h1
          · intro h
            exact ⟨fun x hx => h.1 x (List.mem_cons_of_mem _ hx), h.2⟩
    · rw [if_neg hd]
      constructor
      · intro h; cases h
      · intro h
        exact absurd (h.1 c (List.mem_cons_self _ _)) hd

theorem ParseUint_ok_iff (cs : List Char) (m : Nat) :
    ParseUint cs = .ok m ↔
      cs ≠ [] ∧ (∀ c ∈ cs, isDigit c) ∧ digitsValue 0 cs = m ∧ m ≤ 18446744073709551615 := by
  unfold ParseUint
  by_cases h : cs = []
  · rw [if_pos h]
    constructor
    · intro h1; cases h1
    · intro h1; exact absurd h h1.1
  · rw [if_neg h]
    rw [parseUintLoop_ok_iff cs 0 m (Nat.zero_le _)]
    constructor
    · intro h1; exact ⟨h, h1⟩
    · intro h1; exact h1.2

theorem isDigit_ne_sign (c : Char) (h : isDigit c) : c ≠ '+' ∧ c ≠ '-' := by
  constructor
  · intro hc
    rw [hc] at h
    exact absurd h (by unfold isDigit; decide)
  · intro hc
    rw [hc] at h
    exact absurd h (by unfold isDigit; decide)

theorem parseIntChars_of_error (c : Char) (t : List Char) (e : NumError)
    (hU : ParseUint (if c = '+' ∨ c = '-' then t else c :: t) = .error e) :
    (parseIntChars (c :: t)).2 = some e := by
  cases e with
  | ErrSyntax => simp [parseIntChars, hU]
  | ErrRange =>
    by_cases hc : c = '-'
    · simp only [hc, or_true, if_true] at hU
      simp [parseIntChars, hU, hc]
    · simp only [hc, or_false] at hU
      simp [parseIntChars, hU, hc]

theorem parseIntChars_of_ok (c : Char) (t : List Char) (un : Nat)
    (hU : ParseUint (if c = '+' ∨ c = '-' then t else c :: t) = .ok un) :
    parseIntChars (c :: t) =
      if ¬ c = '-' ∧ un ≥ 9223372036854775808 then (9223372036854775807, some .ErrRange)
      else if c = '-' ∧ un > 9223372036854775808 then (-9223372036854775808, some .ErrRange)
      else (if c = '-' then -(un : Int) else (un : Int), none) := by
  by_cases hc : c = '-'
  · simp only [hc, or_true, if_true] at hU
    simp [parseIntChars, hU, hc]
  · simp only [hc, or_false] at hU
    simp [parseIntChars, hU, hc]

/-- `ParseInt` succeeds exactly on the base-10 integer numerals whose value fits 64
bits, and returns the integer the numeral denotes. -/
theorem parseIntChars_ok_iff (s : List Char) (n : Int) :
    parseIntChars s = (n, none) ↔
      SignedNumeral s n ∧ -9223372036854775808 ≤ n ∧ n ≤ 9223372036854775807 := by
  cases s with
  | nil =>
    constructor
    · intro h
      simp [parseIntChars] at h
    · intro h
      obtain ⟨digits, hne, _, h1 | h1 | h1⟩ := h.1
      · exact absurd h1.1.symm hne
      · cases h1.1
      · cases h1.1
  | cons c t =>
    constructor
    · intro h
      cases hU : ParseUint (if c = '+' ∨ c = '-' then t else c :: t) with
      | error e =>
        have := parseIntChars_of_error c t e hU
        rw [h] at this
        cases this
      | ok un =>
        rw [parseIntChars_of_ok c t un hU] at h
        obtain ⟨hne, hdig, hval, _⟩ := (ParseUint_ok_iff _ un).mp hU
        by_cases hminus : c = '-'
        · have hrest : (if c = '+' ∨ c = '-' then t else c :: t) = t := by simp [hminus]
          rw [hrest] at hne hdig hval
          simp only [hminus, not_true_eq_false, false_and, if_false, true_and, if_true] at h
          by_cases hbig : un > 9223372036854775808
          · rw [if_pos hbig] at h; cases h
          · rw [if_neg hbig] at h
            have hn : n = -(un : Int) := by
              have := congrArg Prod.fst h
              exact this.symm
            refine ⟨⟨t, hne, hdig, Or.inr (Or.inr ⟨by rw [hminus], by rw [hn, hval]⟩)⟩, ?_, ?_⟩
            · omega
            · omega
        · simp only [hminus, not_false_eq_true, true_and, false_and, if_false] at h
          by_cases hbig : un ≥ 9223372036854775808
          · rw [if_pos hbig] at h; cases h
          · rw [if_neg hbig] at h
            have hn : n = (un : Int) := by
              have := congrArg Prod.fst h
              exact this.symm
            by_cases hplus : c = '+'
            · have hrest : (if c = '+' ∨ c = '-' then t else c :: t) = t := by simp [hplus]
              rw [hrest] at hne hdig hval
              refine ⟨⟨t, hne, hdig, Or.inr (Or.inl ⟨by rw [hplus], by rw [hn, hval]⟩)⟩, ?_, ?_⟩
              · omega
              · omega
            · have hrest : (if c = '+' ∨ c = '-' then t else c :: t) = c :: t := by
                simp [hplus, hminus]
              rw [hrest] at hne hdig hval
              refine ⟨⟨c :: t, hne, hdig, Or.inl ⟨rfl, by rw [hn, hval]⟩⟩, ?_, ?_⟩
              · omega
              · omega
    · intro h
      obtain ⟨⟨digits, hne, hdig, hcase⟩, hlo, hhi⟩ := h
      rcases hcase with ⟨hb, hn⟩ | ⟨hb, hn⟩ | ⟨hb, hn⟩
      · have hc : isDigit c := hdig c (by rw [← hb]; exact List.mem_cons_self _ _)
        obtain ⟨hp, hm⟩ := isDigit_ne_sign c hc
        have hrest : (if c = '+' ∨ c = '-' then t else c :: t) = c :: t := by simp [hp, hm]
        have hU : ParseUint (if c = '+' ∨ c = '-' then t else c :: t)
            = .ok (digitsValue 0 digits) := by
          rw [hrest, hb]
          exact (ParseUint_ok_iff _ _).mpr ⟨hne, hdig, rfl, by omega⟩
        rw [parseIntChars_of_ok c t _ hU]
        have h1 : ¬ (¬ c = '-' ∧ digitsValue 0 digits ≥ 9223372036854775808) := by
          intro hx; omega
        rw [if_neg h1, if_neg (fun hx => hm hx.1), if_neg hm, hn]
      · have hc : c = '+' := (List.cons.inj hb).1
        have ht : t = digits := (List.cons.inj hb).2
        have hm : ¬ c = '-' := by rw [hc]; decide
        have hrest : (if c = '+' ∨ c = '-' then t else c :: t) = t := by simp [hc]
        have hU : ParseUint (if c = '+' ∨ c = '-' then t else c :: t)
            = .ok (digitsValue 0 digits) := by
          rw [hrest, ht]
          exact (ParseUint_ok_iff _ _).mpr ⟨hne, hdig, rfl, by omega⟩
        rw [parseIntChars_of_ok c t _ hU]
        have h1 : ¬ (¬ c = '-' ∧ digitsValue 0 digits ≥ 9223372036854775808) := by
          intro hx; omega
        rw [if_neg h1, if_neg (fun hx => hm hx.1), if_neg hm, hn]
      · have hc : c = '-' := (List.cons.inj hb).1
        have ht : t = digits := (List.cons.inj hb).2
        have hrest : (if c = '+' ∨ c = '-' then t else c :: t) = t := by simp [hc]
        have hU : ParseUint (if c = '+' ∨ c = '-' then t else c :: t)
            = .ok (digitsValue 0 digits) := by
          rw [hrest, ht]
          exact (ParseUint_ok_iff _ _).mpr ⟨hne, hdig, rfl, by omega⟩
        rw [parseIntChars_of_ok c t _ hU]
        have h1 : ¬ (¬ c = '-' ∧ digitsValue 0 digits ≥ 9223372036854775808) :=
          fun hx => hx.1 hc
        have h2 : ¬ (c = '-' ∧ digitsValue 0 digits > 9223372036854775808) := by
          intro hx; omega
        rw [if_neg h1, if_neg h2, if_pos hc, hn]

theorem Atoi_eq_some_iff (s : String) (n : Int) :
    Atoi s = some n ↔
      SignedNumeral s.data n ∧ -9223372036854775808 ≤ n ∧ n ≤ 9223372036854775807 := by
  rw [← parseIntChars_ok_iff]
  unfold Atoi ParseInt
  cases h : parseIntChars s.data with
  | mk v e =>
    cases e with
    | none => simp
    | some x => simp

/-! ## Lemmas on placeholder segments -/

theorem braced_parts (v : String) (body : List Char) (h : v.data = '{' :: (body ++ ['}'])) :
    hasOpenBrace v = true ∧ hasCloseBrace v = true ∧ trimBraces v = String.mk body := by
  have hlast : v.data.getLast? = some '}' := by
    rw [h]
    have : '{' :: (body ++ ['}']) = ('{' :: body) ++ ['}'] := rfl
    rw [this, List.getLast?_concat]
  have hdrop : v.data.dropLast = '{' :: body := by
    rw [h]
    have : '{' :: (body ++ ['}']) = ('{' :: body) ++ ['}'] := rfl
    rw [this, List.dropLast_concat]
  refine ⟨?_, ?_, ?_⟩
  · simp [hasOpenBrace, h]
  · simp [hasCloseBrace, hlast]
  · simp [trimBraces, hlast, hdrop]

theorem braced_of_braces (v : String) (h1 : hasOpenBrace v = true)
    (h2 : hasCloseBrace v = true) : ∃ body, v.data = '{' :: (body ++ ['}']) := by
  simp only [hasOpenBrace, beq_iff_eq] at h1
  simp only [hasCloseBrace, beq_iff_eq] at h2
  obtain ⟨ys, hys⟩ := List.getLast?_eq_some_iff.mp h2
  cases ys with
  | nil =>
    rw [hys] at h1
    simp at h1
  | cons y body =>
    rw [hys] at h1
    simp only [List.cons_append, List.head?_cons, Option.some.injEq] at h1
    exact ⟨body, by rw [hys, h1]; rfl⟩

/-- The segments `addRoute` treats as placeholders: `{`, a base-10 integer numeral
with an optional sign whose value fits a 64-bit `int`, `}`. -/
theorem placeholderArg_eq_some_iff (v : String) (n : Int) :
    placeholderArg v = some n ↔
      ∃ body, v.data = '{' :: (body ++ ['}']) ∧ SignedNumeral body n ∧
        -9223372036854775808 ≤ n ∧ n ≤ 9223372036854775807 := by
  constructor
  · intro h
    unfold placeholderArg at h
    by_cases hb : (hasOpenBrace v && hasCloseBrace v) = true
    · rw [if_pos hb] at h
      simp only [Bool.and_eq_true] at hb
      obtain ⟨body, hbody⟩ := braced_of_braces v hb.1 hb.2
      rw [(braced_parts v body hbody).2.2] at h
      exact ⟨body, hbody, (Atoi_eq_some_iff _ n).mp h⟩
    · rw [if_neg hb] at h
      cases h
  · intro h
    obtain ⟨body, hbody, hnum⟩ := h
    obtain ⟨ho, hc, ht⟩ := braced_parts v body hbody
    unfold placeholderArg
    rw [ho, hc, ht]
    simp only [Bool.and_self, if_true]
    exact (Atoi_eq_some_iff _ n).mpr hnum

/-! ## C15 -/

/-- C15 (placeholder syntax) fails as stated: `{-1}` and `{+2}` are registered as
placeholders (`Atoi` accepts a sign), not as literal children keyed by their text,
and `{+2}` is bound to argument 2; and `{99999999999999999999}`, a non-negative
integer in braces that does not fit an `int`, is registered as a literal child. -/
theorem C15_signed_numerals_are_placeholders :
    placeholderArg "{-1}" = some (-1) ∧
    ((routeLoop allMethods 0 newPath (Split "/{-1}")).parameter).isSome = true ∧
    ((routeLoop allMethods 0 newPath (Split "/{-1}")).subpaths "{-1}").isSome = false ∧
    placeholderArg "{+2}" = some 2 ∧
    ((routeLoop allMethods 0 newPath (Split "/{+2}")).parameter).isSome = true ∧
    ((routeLoop allMethods 0 newPath (Split "/{+2}")).subpaths "{+2}").isSome = false ∧
    paramLoop 0 [] (Split "/{+2}") = [⟨0, 2⟩] ∧
    placeholderArg "{99999999999999999999}" = none ∧
    ((routeLoop allMethods 0 newPath (Split "/{99999999999999999999}")).subpaths
      "{99999999999999999999}").isSome = true :=
  ⟨by decide, by decide, by decide, by decide, by decide, by decide, by decide, by decide,
    by decide⟩

/-- C15, amended: during registration a pattern segment is treated as a placeholder
(the walk descends into the node's single placeholder child, created when absent)
exactly when it is `{`, a base-10 integer numeral (one or more digits, optionally
preceded by one sign `+` or `-`) whose value fits a 64-bit `int`, `}`; every other
non-empty segment is registered as a literal child keyed by the segment's full text.
So `{}` and `{x}` are literals, and `{-1}`, `{+2}` and `{7}` are placeholders. -/
theorem C15_placeholder_syntax (ms : List String) (h : Nat) (p : path) (v : String)
    (vs : List String) :
    ((∃ n, placeholderArg v = some n) ↔
      ∃ body n, v.data = '{' :: (body ++ ['}']) ∧ SignedNumeral body n ∧
        -9223372036854775808 ≤ n ∧ n ≤ 9223372036854775807) ∧
    (v ≠ "" → (∃ n, placeholderArg v = some n) →
      routeLoop ms h p (v :: vs)
        = .mk p.subpaths (some (routeLoop ms h (p.parameter.getD newPath) vs)) p.methods) ∧
    (v ≠ "" → placeholderArg v = none →
      routeLoop ms h p (v :: vs)
        = .mk (put p.subpaths v (routeLoop ms h ((p.subpaths v).getD newPath) vs))
            p.parameter p.methods) ∧
    placeholderArg "{}" = none ∧ placeholderArg "{x}" = none ∧
    placeholderArg "{-1}" = some (-1) ∧ placeholderArg "{+2}" = some 2 ∧
    placeholderArg "{7}" = some 7 := by
  refine ⟨?_, ?_, ?_, by decide, by decide, by decide, by decide, by decide⟩
  · constructor
    · intro hx
      obtain ⟨n, hn⟩ := hx
      obtain ⟨body, hb⟩ := (placeholderArg_eq_some_iff v n).mp hn
      exact ⟨body, n, hb⟩
    · intro hx
      obtain ⟨body, n, hb⟩ := hx
      exact ⟨n, (placeholderArg_eq_some_iff v n).mpr ⟨body, hb⟩⟩
  · intro hv hx
    obtain ⟨n, hn⟩ := hx
    simp only [routeLoop, hv, if_false, hn]
  · intro hv hn
    simp only [routeLoop, hv, if_false, hn]

/-! ## Lemmas on the binding plan -/

theorem placeholderArg_empty : placeholderArg "" = none := by decide

theorem paramLoop_eq_plan (l : List String) : ∀ (n : Nat) (acc : List param),
    paramLoop n acc l
      = acc ++ (((l.filterMap placeholderArg).enumFrom n).filter (fun kn => kn.2 > 0)).map
          (fun kn => ⟨kn.1, kn.2⟩) := by
  induction l with
  | nil => intro n acc; simp [paramLoop]
  | cons v vs ih =>
    intro n acc
    by_cases hv : v = ""
    · simp only [paramLoop, hv, if_true, ih, List.filterMap_cons, placeholderArg_empty]
    · simp only [paramLoop, hv, if_false, List.filterMap_cons]
      cases hp : placeholderArg v with
      | none => simp only [ih]
      | some arg =>
        simp only [ih, List.enumFrom_cons]
        by_cases ha : arg > 0
        · simp [ha, List.filter_cons]
        · simp [ha, List.filter_cons]

theorem paramLoop_eq_bindingPlan (s : String) :
    paramLoop 0 [] (Split s) = bindingPlan (segments s) := by
  rw [paramLoop_filter, paramLoop_eq_plan]
  simp [bindingPlan, placeholders, segments, List.enum]

/-! ## C16 -/

/-- C16 (binding plan): for every pattern, the parameter bindings recorded on the
handler by `r.To(f)` are exactly, in left-to-right order, the pairs `(k, n)` for each
placeholder segment `{n}` with `n > 0`, where `k` is the number of placeholder
segments (those with `n = 0` included) before it. A `{0}` placeholder contributes no
binding but occupies an index and takes the placeholder edge, so it matches and
captures one request segment: for `/x/{0}/{5}` the plan is `[(1, 5)]` and the request
`/x/a/b` collects `["a", "b"]`; in general a segment without a literal child follows
the placeholder child of the node and is appended to the collected parameters. -/
theorem C16_binding_plan (a : API) (r : Route) (f : Func) :
    ((r.To a f).1.handlers r.handler).params = bindingPlan (segments r.route) ∧
    paramLoop 0 [] (Split r.route) = bindingPlan (segments r.route) ∧
    placeholderArg "{0}" = some 0 ∧ edgeOf "{0}" = .par ∧
    bindingPlan (segments "/x/{0}/{5}") = [⟨1, 5⟩] ∧
    (ServeHTTP decimalLib (Route.To New ⟨"/x/{0}/{5}", [], 0⟩ oneFunc).1
      ⟨"/x/a/b", "GET", ""⟩).called = some (0, ["a", "b"]) ∧
    (∀ (p q : path) (s : String) (acc vs : List String), s ≠ "" →
      p.subpaths s = none → p.parameter = some q →
      serveLoop p acc (s :: vs) = serveLoop q (acc ++ [s]) vs) := by
  refine ⟨?_, paramLoop_eq_bindingPlan _, by decide, by decide, by decide, by decide, ?_⟩
  · rw [To_handler]
    exact paramLoop_eq_bindingPlan _
  · intro p q s acc vs hs hsub hpar
    simp only [serveLoop, hs, if_false, hsub, hpar]

/-! ## Lemmas on integer coercion -/

theorem wrapInt_of_fits (k : Kind) (hk : k.bits ≠ 0) (n : Int)
    (hfit : -(2 ^ (k.bits - 1)) ≤ n ∧ n < 2 ^ (k.bits - 1)) : wrapInt k.bits n = n := by
  cases k <;> first
    | exact absurd rfl hk
    | (simp only [Kind.bits] at hfit
       unfold wrapInt
       simp only [Kind.bits]
       norm_num at hfit ⊢
       split_ifs <;> omega)

theorem fits_int64 (k : Kind) (hk : k.bits ≠ 0) (n : Int)
    (hfit : -(2 ^ (k.bits - 1)) ≤ n ∧ n < 2 ^ (k.bits - 1)) :
    -9223372036854775808 ≤ n ∧ n ≤ 9223372036854775807 := by
  cases k <;> first
    | exact absurd rfl hk
    | (simp only [Kind.bits] at hfit
       norm_num at hfit
       omega)

/-! ## C17 -/

/-- C17 (integer coercion value) fails as stated for a numeral that does not fit the
declared type: with `/b/{1}` bound to an `int8` argument and the request `GET /b/300`,
the text `300` is a base-10 numeral denoting 300, `ParseInt` returns 300 without
error, and `SetInt` stores it truncated to 8 bits, so the argument built is 44. -/
theorem C17_narrow_width_truncates :
    SignedNumeral "300".data 300 ∧
    ParseInt "300" = (300, none) ∧
    (ServeHTTP decimalLib byteAPI ⟨"/b/300", "GET", ""⟩).called = some (0, ["300"]) ∧
    buildArgs decimalLib byteFunc (byteAPI.handlers 0) ["300"]
      = .ok [none, some (.int .Int8 44)] :=
  ⟨((parseIntChars_ok_iff "300".data 300).mp (by decide)).1, by decide, by decide, rfl⟩

/-- C17, amended: for every binding `p` of a handler (the only binding to its
argument position) whose declared argument type is a signed integer of any width
(`int`, `int8`, `int16`, `int32`, `int64`), and every path text at its parameter index
that is a base-10 integer numeral whose value fits the declared type, the slot of
`p` in the argument list `call` builds holds the integer the numeral denotes. -/
theorem C17_integer_value (lib : Lib) (f : Func) (h : handler) (params : List String)
    (p : param) (k : Kind) (s : String) (n : Int)
    (hp : p ∈ h.params) (huniq : ∀ q ∈ h.params, q.arg = p.arg → q = p)
    (hpos : 0 < p.arg) (hk : f.ins[p.arg.toNat]? = some k) (hint : k.bits ≠ 0)
    (hs : params[p.path]? = some s) (hnum : SignedNumeral s.data n)
    (hfit : -(2 ^ (k.bits - 1)) ≤ n ∧ n < 2 ^ (k.bits - 1)) :
    ParseInt s = (n, none) ∧
    ∀ args, buildArgs lib f h params = .ok args →
      args[p.arg.toNat]? = some (some (.int k n)) := by
  have hparse : ParseInt s = (n, none) :=
    (parseIntChars_ok_iff s.data n).mpr ⟨hnum, fits_int64 k hint n hfit⟩
  refine ⟨hparse, ?_⟩
  intro args hargs
  have hc := coerce_int lib k params p.path s hint hs
  rw [hparse] at hc
  simp only at hc
  rw [wrapInt_of_fits k hint n hfit] at hc
  unfold buildArgs at hargs
  cases hb : bindBody f h.jsonBody (List.replicate f.ins.length none) with
  | error e => simp [hb] at hargs
  | ok args0 =>
    simp only [hb] at hargs
    have hlen : p.arg.toNat < args0.length := by
      rw [bindBody_length f h.jsonBody _ args0 hb, List.length_replicate]
      exact (List.getElem?_eq_some.mp hk).1
    exact bindLoop_get lib f params p k _ (by omega) hk hc h.params args0 args hargs
      hp huniq hlen

/-- C17, amended, at a handler `func(x int, b int8)` with `{1}` bound to `b` and the
path text `-128`. -/
theorem C17_integer_value_witness :
    ParseInt "-128" = (-128, none) ∧
    ∀ args, buildArgs decimalLib byteFunc ⟨some byteFunc, [⟨0, 1⟩], 0⟩ ["-128"] = .ok args →
      args[(1 : Int).toNat]? = some (some (.int .Int8 (-128))) :=
  C17_integer_value decimalLib byteFunc ⟨some byteFunc, [⟨0, 1⟩], 0⟩ ["-128"] ⟨0, 1⟩
    .Int8 "-128" (-128) (by decide) (by decide) (by decide) rfl (by decide) rfl
    ((parseIntChars_ok_iff "-128".data (-128)).mp (by decide)).1 (by decide)

/-! ## Lemmas on the handler heap -/

theorem step_params_pos (a : API) (op : Op)
    (hinv : ∀ i, ∀ p ∈ (a.handlers i).params, 0 < p.arg) :
    ∀ i, ∀ p ∈ ((step a op).handlers i).params, 0 < p.arg := by
  intro i p hp
  cases op with
  | Route s =>
    simp only [step, API.Route] at hp
    by_cases hi : i = a.next
    · simp [hi] at hp
    · simp only [hi, if_false] at hp
      exact hinv i p hp
  | Body r arg =>
    simp only [step, Route.Body, API.setHandler] at hp
    by_cases hi : i = r.handler
    · simp only [hi, if_true] at hp
      exact hinv r.handler p hp
    · simp only [hi, if_false] at hp
      exact hinv i p hp
  | To r f =>
    simp only [step, To_eq] at hp
    by_cases hi : i = r.handler
    · simp only [hi, if_true] at hp
      exact paramLoop_pos _ 0 [] (fun q hq => by simp at hq) p hp
    · simp only [hi, if_false] at hp
      exact hinv i p hp

theorem run_params_pos (ops : List Op) : ∀ a : API,
    (∀ i, ∀ p ∈ (a.handlers i).params, 0 < p.arg) →
    ∀ i, ∀ p ∈ ((run a ops).handlers i).params, 0 < p.arg := by
  induction ops with
  | nil => intro a hinv; exact hinv
  | cons op rest ih =>
    intro a hinv
    exact ih (step a op) (step_params_pos a op hinv)

/-! ## C18 -/

/-- C18 (handler-descriptor invariant) fails as stated in its second half: after
`r := a.Route("/x/{1}"); r.Body(1); r.To(f)` the handler stored in the tree for `GET`
at `/x/{1}` has body argument position 1 and a parameter binding with argument
position 1. -/
theorem C18_body_can_coincide_with_binding :
    entry collideAPI.paths (edges (Split "/x/{1}")) "GET" = some 0 ∧
    (collideAPI.handlers 0).jsonBody = 1 ∧
    (collideAPI.handlers 0).params = [⟨0, 1⟩] :=
  ⟨by decide, by decide, by decide⟩

/-- C18, amended: for every handler stored in the path tree after any sequence of
`Route`/`Body`/`To` calls on a new router, no parameter binding has argument
position 0: every binding's argument position is positive. -/
theorem C18_bindings_positive (ops : List Op) (es : List Edge) (m : String) (h : Nat)
    (_hentry : entry (run New ops).paths es m = some h) :
    ∀ p ∈ ((run New ops).handlers h).params, p.arg ≠ 0 ∧ 0 < p.arg := by
  intro p hp
  have hpos := run_params_pos ops New (fun i q hq => by simp [New] at hq) h p hp
  exact ⟨by omega, hpos⟩

/-- C18, amended, at the router after `r := a.Route("/x/{1}"); r.Body(1); r.To(f)`. -/
theorem C18_bindings_positive_witness :
    (⟨0, 1⟩ : param) ∈ (collideAPI.handlers 0).params ∧
    (⟨0, 1⟩ : param).arg ≠ 0 ∧ 0 < (⟨0, 1⟩ : param).arg :=
  ⟨by decide,
   C18_bindings_positive
    [.Route "/x/{1}", .Body ⟨"/x/{1}", [], 0⟩ 1, .To ⟨"/x/{1}", [], 0⟩ helloFunc]
    (edges (Split "/x/{1}")) "GET" 0 (by decide) ⟨0, 1⟩ (by decide)⟩

/-! ## Lemmas on the nodes of the tree -/

theorem nodeAt_newPath_isSome (es : List Edge) :
    (nodeAt newPath es).isSome = true ↔ es = [] := by
  cases es with
  | nil => simp [nodeAt]
  | cons e es => simp [nodeAt_newPath]

/-- The nodes after the tree update are the nodes before it and the nodes along the
position walked. -/
theorem nodeAt_insertAt_isSome_iff (ms : List String) (h : Nat) (es : List Edge) :
    ∀ (t : path) (es1 : List Edge),
      (nodeAt (insertAt ms h t es) es1).isSome = true ↔
        ((nodeAt t es1).isSome = true ∨ es1 <+: es) := by
  induction es with
  | nil =>
    intro t es1
    cases es1 with
    | nil => simp [nodeAt]
    | cons e1 rest =>
      have hsame : nodeAt (insertAt ms h t []) (e1 :: rest) = nodeAt t (e1 :: rest) := by
        cases e1 <;> rfl
      rw [hsame]
      simp
  | cons e es ih =>
    intro t es1
    cases es1 with
    | nil => simp [nodeAt]
    | cons e1 rest =>
      by_cases he : e1 = e
      · subst he
        simp only [nodeAt, child_insertAt_cons_same, ih, List.cons_prefix_cons, true_and]
        cases hc : child t e1 with
        | some c => simp
        | none =>
          simp only [Option.getD_none, nodeAt_newPath_isSome, Option.isSome_none,
            Bool.false_eq_true, false_or]
          constructor
          · intro hx
            rcases hx with hx | hx
            · rw [hx]; exact List.nil_prefix
            · exact hx
          · intro hx; exact Or.inr hx
      · simp only [nodeAt, child_insertAt_cons_other ms h t e e1 es he, List.cons_prefix_cons,
          he, false_and, or_false]

/-! ## C19 -/

/-- C19 (registration frame): registering a route by `r.To(f)` for the pattern `P`
under the method set `M` makes the route's handler the entry for the methods of `M`
at `P`'s terminal node and leaves every other (node, method) entry of the tree as
it was; the nodes afterwards are the nodes before and the nodes along `P` (the new
ones have no entries but those just stored); handler objects other than the
route's own are unchanged. In particular a handler previously registered at the
same pattern for a method outside `M` is still the one a request for that method
reaches: after `/x` is registered for `GET` and then for `POST` with another
handler, `GET /x` runs the first one. -/
theorem C19_registration_frame (lib : Lib) (a : API) (r : Route) (f : Func) :
    (∀ es m, entry (r.To a f).1.paths es m
      = if es = edges (Split r.route) ∧ m ∈ effMethods r then some r.handler
        else entry a.paths es m) ∧
    (∀ es, (nodeAt (r.To a f).1.paths es).isSome = true ↔
      ((nodeAt a.paths es).isSome = true ∨ es <+: edges (Split r.route))) ∧
    (∀ h, h ≠ r.handler → (r.To a f).1.handlers h = a.handlers h) ∧
    (∀ (req : Request) (n : path) (ps : List String) (h1 : Nat),
      req.Method ∉ effMethods r →
      entry a.paths (edges (Split r.route)) req.Method = some h1 →
      nodeAt (r.To a f).1.paths (edges (Split r.route)) = some n →
      serveLoop (r.To a f).1.paths [] (Split req.Path) = some (n, ps) →
      (ServeHTTP lib (r.To a f).1 req).called = some (h1, ps)) ∧
    ServeHTTP decimalLib
        (run New [.To ⟨"/x", ["GET"], 0⟩ oneFunc, .To ⟨"/x", ["POST"], 1⟩ twoFunc])
        ⟨"/x", "GET", ""⟩
      = ⟨some (0, []), some [], ⟨none, [], "1\n"⟩, none⟩ := by
  refine ⟨fun es m => To_entry a r f es m, ?_, ?_, ?_, by decide⟩
  · intro es
    rw [To_paths]
    exact nodeAt_insertAt_isSome_iff _ _ _ _ _
  · intro h hne
    rw [To_eq]
    simp [hne]
  · intro req n ps h1 hm hold hn hw
    have he : entry (r.To a f).1.paths (edges (Split r.route)) req.Method = some h1 := by
      rw [To_entry]
      simp [hm, hold]
    rw [entry_of_nodeAt _ n _ _ hn] at he
    rw [ServeHTTP_of_resolved lib _ req n ps h1 hw he]

/-! ## Lemmas on client programs -/

theorem To_snd (a : API) (r : Route) (f : Func) :
    (r.To a f).2 = ⟨r.route, effMethods r, r.handler⟩ := rfl

theorem exec_inv (c : Client) (cmd : Cmd) (hinv : ClientInv c) : ClientInv (exec c cmd) := by
  obtain ⟨hnext, hroutes, hentries⟩ := hinv
  cases cmd with
  | Route s =>
    refine ⟨?_, ?_, ?_⟩
    · simp [exec, API.Route, hnext]
    · intro i r hr
      simp only [exec, API.Route] at hr
      by_cases hi : i < c.routes.length
      · rw [List.getElem?_append_left hi] at hr
        exact hroutes i r hr
      · rw [List.getElem?_append_right (by omega)] at hr
        cases hk : i - c.routes.length with
        | zero =>
          rw [hk] at hr
          simp only [List.getElem?_cons_zero, Option.some.injEq] at hr
          rw [← hr]
          simp only
          omega
        | succ k =>
          rw [hk] at hr
          simp at hr
    · intro es m h he
      have he1 : entry c.api.paths es m = some h := he
      obtain ⟨r, hr, hes, hparams⟩ := hentries es m h he1
      have hlt : h < c.routes.length := (List.getElem?_eq_some.mp hr).1
      refine ⟨r, ?_, hes, ?_⟩
      · simp only [exec]
        rw [List.getElem?_append_left hlt]
        exact hr
      · have hne : h ≠ c.api.next := by omega
        simp only [exec, API.Route, hne, if_false]
        exact hparams
  | Body i arg =>
    simp only [exec]
    cases hr : c.routes[i]? with
    | none => exact ⟨hnext, hroutes, hentries⟩
    | some r =>
      refine ⟨hnext, hroutes, ?_⟩
      intro es m h he
      have he1 : entry c.api.paths es m = some h := he
      obtain ⟨r0, hr0, hes, hparams⟩ := hentries es m h he1
      refine ⟨r0, hr0, hes, ?_⟩
      simp only [Route.Body, API.setHandler]
      by_cases hh : h = r.handler
      · simp only [hh, if_true]
        rw [← hh]
        exact hparams
      · simp only [hh, if_false]
        exact hparams
  | To i f =>
    simp only [exec]
    cases hr : c.routes[i]? with
    | none => exact ⟨hnext, hroutes, hentries⟩
    | some r =>
      have hri : r.handler = i := hroutes i r hr
      have hlt : i < c.routes.length := (List.getElem?_eq_some.mp hr).1
      have hset : (c.routes.set i (r.To c.api f).2)[i]? = some (r.To c.api f).2 :=
        List.getElem?_set_self hlt
      refine ⟨?_, ?_, ?_⟩
      · simp only [List.length_set]
        exact hnext
      · intro j r1 hr1
        by_cases hj : j = i
        · rw [hj, hset] at hr1
          cases hr1
          rw [To_snd, hj]
          exact hri
        · rw [List.getElem?_set_ne (fun hx => hj hx.symm)] at hr1
          exact hroutes j r1 hr1
      · intro es m h he
        have he1 : entry (r.To c.api f).1.paths es m = some h := he
        rw [To_entry] at he1
        have hparamsi : ((r.To c.api f).1.handlers i).params
            = paramLoop 0 [] (Split (r.To c.api f).2.route) := by
          rw [← hri, To_handler, To_snd]
        by_cases hcond : es = edges (Split r.route) ∧ m ∈ effMethods r
        · rw [if_pos hcond] at he1
          have hh : h = i := by
            cases he1
            exact hri
          rw [hh]
          exact ⟨(r.To c.api f).2, hset, by rw [To_snd]; exact hcond.1, hparamsi⟩
        · rw [if_neg hcond] at he1
          obtain ⟨r0, hr0, hes, hparams⟩ := hentries es m h he1
          by_cases hh : h = i
          · rw [hh] at hr0 ⊢
            rw [hr] at hr0
            cases hr0
            exact ⟨(r.To c.api f).2, hset, by rw [To_snd]; exact hes, hparamsi⟩
          · refine ⟨r0, ?_, hes, ?_⟩
            · rw [List.getElem?_set_ne (fun hx => hh hx.symm)]
              exact hr0
            · have hne : h ≠ r.handler := by rw [hri]; exact hh
              show ((r.To c.api f).1.handlers h).params = paramLoop 0 [] (Split r0.route)
              rw [To_eq]
              simp only [hne, if_false]
              exact hparams

theorem execAll_inv (cs : List Cmd) : ClientInv (execAll cs) := by
  have hgen : ∀ (cs : List Cmd) (c : Client), ClientInv c → ClientInv (cs.foldl exec c) := by
    intro cs
    induction cs with
    | nil => intro c hc; exact hc
    | cons cmd rest ih => intro c hc; exact ih (exec c cmd) (exec_inv c cmd hc)
  apply hgen
  refine ⟨rfl, ?_, ?_⟩
  · intro i r hr
    simp at hr
  · intro es m h he
    have : entry newPath es m = none := entry_newPath es m
    rw [show (⟨New, []⟩ : Client).api.paths = newPath from rfl, this] at he
    cases he

/-- The walk of `ServeHTTP` ends at a position of the tree, and collects one
parameter for every placeholder edge on the way. -/
theorem serveLoop_position (l : List String) :
    ∀ (t : path) (acc : List String) (n : path) (ps : List String),
      serveLoop t acc l = some (n, ps) →
      ∃ es, nodeAt t es = some n ∧ ps.length = acc.length + es.count Edge.par := by
  induction l with
  | nil =>
    intro t acc n ps h
    simp only [serveLoop, Option.some.injEq, Prod.mk.injEq] at h
    exact ⟨[], by rw [← h.1]; rfl, by rw [← h.2]; simp⟩
  | cons v vs ih =>
    intro t acc n ps h
    by_cases hv : v = ""
    · simp only [serveLoop, hv, if_true] at h
      exact ih t acc n ps h
    · simp only [serveLoop, hv, if_false] at h
      cases hs : t.subpaths v with
      | some c =>
        simp only [hs] at h
        obtain ⟨es, hn, hlen⟩ := ih c acc n ps h
        refine ⟨.lit v :: es, ?_, ?_⟩
        · simp only [nodeAt, child, hs]
          exact hn
        · rw [hlen]
          simp
      | none =>
        simp only [hs] at h
        cases hp : t.parameter with
        | none => simp [hp] at h
        | some c =>
          simp only [hp] at h
          obtain ⟨es, hn, hlen⟩ := ih c (acc ++ [v]) n ps h
          refine ⟨.par :: es, ?_, ?_⟩
          · simp only [nodeAt, child, hp]
            exact hn
          · rw [hlen]
            simp
            omega

theorem count_par_map_edgeOf (l : List String) :
    (l.map edgeOf).count Edge.par = (placeholders l).length := by
  induction l with
  | nil => rfl
  | cons v vs ih =>
    simp only [List.map_cons, placeholders, List.filterMap_cons, edgeOf]
    cases hp : placeholderArg v with
    | none =>
      simp only [placeholders] at ih
      simp [ih]
    | some arg =>
      simp only [placeholders] at ih
      simp [ih]

theorem bindingPlan_path_lt (segs : List String) (p : param) (hp : p ∈ bindingPlan segs) :
    p.path < (placeholders segs).length := by
  simp only [bindingPlan, List.mem_map, List.mem_filter] at hp
  obtain ⟨kn, ⟨hmem, _⟩, hkn⟩ := hp
  rw [← hkn]
  exact List.fst_lt_of_mem_enum hmem

theorem ServeHTTP_called_inv (lib : Lib) (a : API) (req : Request) (h : Nat)
    (ps : List String) (hres : (ServeHTTP lib a req).called = some (h, ps)) :
    ∃ n, serveLoop a.paths [] (Split req.Path) = some (n, ps) ∧
      n.methods req.Method = some h := by
  unfold ServeHTTP at hres
  cases hw : serveLoop a.paths [] (Split req.Path) with
  | none => rw [hw] at hres; simp [notFound] at hres
  | some res =>
    obtain ⟨n, ps1⟩ := res
    rw [hw] at hres
    simp only at hres
    cases hm : n.methods req.Method with
    | none => rw [hm] at hres; simp [notFound] at hres
    | some h1 =>
      rw [hm] at hres
      simp only [Option.some.injEq, Prod.mk.injEq] at hres
      exact ⟨n, by rw [hres.2], by rw [hm, hres.1]⟩

theorem coerce_ok_of_index (lib : Lib) (k : Kind) (ps : List String) (i : Nat) (s : String)
    (hs : ps[i]? = some s) : ∃ x, coerce lib k ps i = .ok x := by
  cases k <;> simp [coerce, hs]

/-! ## C20 -/

/-- C20 (parameter-index safety): in every router state a client program reaches
through `Route`, `Body` and `To`, for every request that resolves to a handler, that
handler is the one of a route the program created, the number of collected
parameter values equals the number of placeholder segments of that route's pattern,
and every binding's path index is within the bounds of the collected parameter
list, so the lookup `params[p.path]` in `call` does not go out of range, whatever the
declared kind of the argument. -/
theorem C20_parameter_index_safety (lib : Lib) (cs : List Cmd) (req : Request) (h : Nat)
    (ps : List String)
    (hres : (ServeHTTP lib (execAll cs).api req).called = some (h, ps)) :
    ∃ r : Route, (execAll cs).routes[h]? = some r ∧ r.handler = h ∧
      ps.length = (placeholders (segments r.route)).length ∧
      ∀ p ∈ ((execAll cs).api.handlers h).params,
        p.path < ps.length ∧ (∃ s, ps[p.path]? = some s) ∧
        ∀ k, ∃ x, coerce lib k ps p.path = .ok x := by
  obtain ⟨hnext, hroutes, hentries⟩ := execAll_inv cs
  obtain ⟨n, hw, hm⟩ := ServeHTTP_called_inv lib _ req h ps hres
  obtain ⟨es, hn, hlen⟩ := serveLoop_position _ _ _ _ _ hw
  have he : entry (execAll cs).api.paths es req.Method = some h := by
    rw [entry_of_nodeAt _ n _ _ hn]
    exact hm
  obtain ⟨r, hr, hes, hparams⟩ := hentries es req.Method h he
  have hcount : ps.length = (placeholders (segments r.route)).length := by
    rw [hlen, hes, edges_Split, count_par_map_edgeOf]
    simp
  refine ⟨r, hr, hroutes h r hr, hcount, ?_⟩
  intro p hp
  rw [hparams, paramLoop_eq_bindingPlan] at hp
  have hlt : p.path < ps.length := by
    rw [hcount]
    exact bindingPlan_path_lt _ p hp
  have hget : ∃ s, ps[p.path]? = some s := ⟨ps[p.path], List.getElem?_eq_getElem hlt⟩
  refine ⟨hlt, hget, ?_⟩
  intro k
  obtain ⟨s, hs⟩ := hget
  exact coerce_ok_of_index lib k ps p.path s hs

/-- C20 at the client program `r0 := a.Route("/u/{1}/p/{2}"); r0.To(f)` and the
request `GET /u/7/p/9`. -/
theorem C20_parameter_index_safety_witness :
    ∃ r : Route, (execAll [.Route "/u/{1}/p/{2}", .To 0 oneFunc]).routes[0]? = some r ∧
      r.handler = 0 ∧
      ["7", "9"].length = (placeholders (segments r.route)).length ∧
      ∀ p ∈ ((execAll [.Route "/u/{1}/p/{2}", .To 0 oneFunc]).api.handlers 0).params,
        p.path < ["7", "9"].length ∧ (∃ s, ["7", "9"][p.path]? = some s) ∧
        ∀ k, ∃ x, coerce decimalLib k ["7", "9"] p.path = .ok x :=
  C20_parameter_index_safety decimalLib [.Route "/u/{1}/p/{2}", .To 0 oneFunc]
    ⟨"/u/7/p/9", "GET", ""⟩ 0 ["7", "9"] (by decide)

/-! ## Lemmas on the texts on which `ParseInt` fails -/

theorem digitsValue_append (p q : List Char) : ∀ n : Nat,
    digitsValue n (p ++ q) = digitsValue (digitsValue n p) q := by
  induction p with
  | nil => intro n; rfl
  | cons c p ih => intro n; exact ih _

/-- The digit loop of `ParseUint` ends in a range error exactly when some leading
digits of the text denote more than 2^64 - 1. -/
theorem parseUintLoop_range_iff (cs : List Char) :
    ∀ n : Nat, n ≤ 18446744073709551615 →
    (parseUintLoop n cs = .error .ErrRange ↔
      ∃ p rest, cs = p ++ rest ∧ (∀ c ∈ p, isDigit c) ∧
        18446744073709551615 < digitsValue n p) := by
  induction cs with
  | nil =>
    intro n hn
    rw [parseUintLoop_nil]
    constructor
    · intro h; cases h
    · intro h
      obtain ⟨p, rest, hp, _, hval⟩ := h
      have hpnil : p = [] := (List.append_eq_nil.mp hp.symm).1
      rw [hpnil] at hval
      have h0 : digitsValue n [] = n := rfl
      rw [h0] at hval
      omega
  | cons c cs ih =>
    intro n hn
    rw [parseUintLoop_cons]
    have hstep : ∀ q : List Char,
        digitsValue n (c :: q) = digitsValue (n * 10 + (c.toNat - '0'.toNat)) q :=
      fun _ => rfl
    have hge : ∀ q : List Char,
        n * 10 + (c.toNat - '0'.toNat) ≤ digitsValue (n * 10 + (c.toNat - '0'.toNat)) q :=
      fun q => digitsValue_ge q _
    have hih := ih (n * 10 + (c.toNat - '0'.toNat))
    obtain ⟨d, hdd⟩ : ∃ d, d = c.toNat - '0'.toNat := ⟨_, rfl⟩
    rw [← hdd] at hstep hge hih ⊢
    by_cases hd : '0' ≤ c ∧ c ≤ '9'
    · rw [if_pos hd]
      have hone : ∀ x ∈ [c], isDigit x := by
        intro x hx
        rw [List.mem_singleton] at hx
        rw [hx]
        exact hd
      by_cases hcut : n ≥ 1844674407370955162
      · rw [if_pos hcut]
        constructor
        · intro _
          refine ⟨[c], cs, rfl, hone, ?_⟩
          rw [hstep]
          have := hge []
          omega
        · intro _; rfl
      · rw [if_neg hcut]
        by_cases hov : n * 10 + d > 18446744073709551615
        · rw [if_pos hov]
          constructor
          · intro _
            refine ⟨[c], cs, rfl, hone, ?_⟩
            rw [hstep]
            have := hge []
            omega
          · intro _; rfl
        · rw [if_neg hov, hih (by omega)]
          constructor
          · intro h
            obtain ⟨p, rest, hp, hdig, hval⟩ := h
            refine ⟨c :: p, rest, by rw [hp]; rfl, ?_, by rw [hstep]; exact hval⟩
            intro x hx
            rcases List.mem_cons.mp hx with h1 | h1
            · rw [h1]; exact hd
            · exact hdig x h1
          · intro h
            obtain ⟨p, rest, hp, hdig, hval⟩ := h
            cases p with
            | nil =>
              have h0 : digitsValue n [] = n := rfl
              rw [h0] at hval
              omega
            | cons c0 p1 =>
              have hc : c = c0 := (List.cons.inj hp).1
              have hcs : cs = p1 ++ rest := (List.cons.inj hp).2
              refine ⟨p1, rest, hcs, fun x hx => hdig x (List.mem_cons_of_mem _ hx), ?_⟩
              rw [← hc, hstep] at hval
              exact hval
    · rw [if_neg hd]
      constructor
      · intro h; cases h
      · intro h
        obtain ⟨p, rest, hp, hdig, hval⟩ := h
        cases p with
        | nil =>
          have h0 : digitsValue n [] = n := rfl
          rw [h0] at hval
          omega
        | cons c0 p1 =>
          have hc : c = c0 := (List.cons.inj hp).1
          exact absurd (hdig c0 (List.mem_cons_self _ _)) (by rw [← hc]; exact hd)

theorem ParseUint_range_iff (cs : List Char) :
    ParseUint cs = .error .ErrRange ↔
      ∃ p rest, cs = p ++ rest ∧ (∀ c ∈ p, isDigit c) ∧
        18446744073709551615 < digitsValue 0 p := by
  unfold ParseUint
  by_cases h : cs = []
  · rw [if_pos h]
    constructor
    · intro h1; cases h1
    · intro h1
      obtain ⟨p, rest, hp, _, hval⟩ := h1
      rw [h] at hp
      have hpnil : p = [] := (List.append_eq_nil.mp hp.symm).1
      rw [hpnil] at hval
      have h0 : digitsValue 0 [] = 0 := rfl
      rw [h0] at hval
      omega
  · rw [if_neg h]
    exact parseUintLoop_range_iff cs 0 (Nat.zero_le _)

theorem afterSign_cons (c : Char) (t : List Char) :
    afterSign (c :: t) = if c = '+' ∨ c = '-' then t else c :: t := by
  simp [afterSign]

theorem int64Bound_cons (c : Char) (t : List Char) :
    int64Bound (c :: t) = if c = '-' then -9223372036854775808 else 9223372036854775807 := by
  simp [int64Bound]

/-- A base-10 integer numeral is one optional sign followed by one or more digits; it
denotes the value of the digits, negated after `-`. -/
theorem SignedNumeral_iff (s : List Char) (n : Int) :
    SignedNumeral s n ↔
      afterSign s ≠ [] ∧ (∀ c ∈ afterSign s, isDigit c) ∧
        n = (if s.head? = some '-' then -(digitsValue 0 (afterSign s) : Int)
             else (digitsValue 0 (afterSign s) : Int)) := by
  constructor
  · intro h
    obtain ⟨digits, hne, hdig, hcase⟩ := h
    rcases hcase with ⟨hb, hn⟩ | ⟨hb, hn⟩ | ⟨hb, hn⟩
    · cases digits with
      | nil => exact absurd rfl hne
      | cons c t =>
        have hc : isDigit c := hdig c (List.mem_cons_self _ _)
        obtain ⟨hp, hm⟩ := isDigit_ne_sign c hc
        have ha : afterSign s = c :: t := by rw [hb, afterSign_cons]; simp [hp, hm]
        rw [ha]
        refine ⟨by simp, hdig, ?_⟩
        rw [hb]
        simp [hm, hn]
    · have ha : afterSign s = digits := by rw [hb, afterSign_cons]; simp
      rw [ha]
      refine ⟨hne, hdig, ?_⟩
      rw [hb]
      have : ¬ ('+' = '-') := by decide
      simp [hn]
    · have ha : afterSign s = digits := by rw [hb, afterSign_cons]; simp
      rw [ha]
      refine ⟨hne, hdig, ?_⟩
      rw [hb]
      simp [hn]
  · intro h
    obtain ⟨hne, hdig, hn⟩ := h
    cases s with
    | nil => exact absurd rfl hne
    | cons c t =>
      rw [afterSign_cons] at hne hdig hn
      simp only [List.head?_cons, Option.some.injEq] at hn
      by_cases hm : c = '-'
      · have hrest : (if c = '+' ∨ c = '-' then t else c :: t) = t := by simp [hm]
        rw [hrest] at hne hdig hn
        rw [if_pos hm] at hn
        exact ⟨t, hne, hdig, Or.inr (Or.inr ⟨by rw [hm], hn⟩)⟩
      · rw [if_neg hm] at hn
        by_cases hp : c = '+'
        · have hrest : (if c = '+' ∨ c = '-' then t else c :: t) = t := by simp [hp]
          rw [hrest] at hne hdig hn
          exact ⟨t, hne, hdig, Or.inr (Or.inl ⟨by rw [hp], hn⟩)⟩
        · have hrest : (if c = '+' ∨ c = '-' then t else c :: t) = c :: t := by
            simp [hp, hm]
          rw [hrest] at hne hdig hn
          exact ⟨c :: t, hne, hdig, Or.inl ⟨rfl, hn⟩⟩

theorem parseIntChars_of_range (c : Char) (t : List Char)
    (hU : ParseUint (if c = '+' ∨ c = '-' then t else c :: t) = .error .ErrRange) :
    parseIntChars (c :: t)
      = (if c = '-' then -9223372036854775808 else 9223372036854775807, some .ErrRange) := by
  by_cases hc : c = '-'
  · simp only [hc, or_true, if_true] at hU
    simp [parseIntChars, hU, hc]
  · simp only [hc, or_false] at hU
    simp [parseIntChars, hU, hc]

theorem digitsValue_prefix_le (p rest : List Char) :
    digitsValue 0 p ≤ digitsValue 0 (p ++ rest) := by
  rw [digitsValue_append]
  exact digitsValue_ge rest _

/-- `ParseInt` fails with a range error exactly on the overflowing texts, and then
returns the `int64` bound on the side of the sign. -/
theorem parseIntChars_range (s : List Char) :
    ((parseIntChars s).2 = some .ErrRange ↔ OverflowingText s) ∧
    ((parseIntChars s).2 = some .ErrRange → (parseIntChars s).1 = int64Bound s) := by
  cases s with
  | nil =>
    refine ⟨⟨fun h => ?_, fun h => ?_⟩, fun h => ?_⟩
    · simp [parseIntChars] at h
    · rcases h with ⟨n, hnum, _⟩ | ⟨p, rest, hp, _, hval⟩
      · exact absurd rfl ((SignedNumeral_iff [] n).mp hnum).1
      · have hpnil : p = [] := (List.append_eq_nil.mp hp.symm).1
        rw [hpnil] at hval
        have h0 : digitsValue 0 [] = 0 := rfl
        rw [h0] at hval
        omega
    · simp [parseIntChars] at h
  | cons c t =>
    have hnumiff := fun n => SignedNumeral_iff (c :: t) n
    simp only [afterSign_cons, List.head?_cons, Option.some.injEq] at hnumiff
    unfold OverflowingText
    rw [afterSign_cons, int64Bound_cons]
    cases hU : ParseUint (if c = '+' ∨ c = '-' then t else c :: t) with
    | error e =>
      have herr := parseIntChars_of_error c t e hU
      cases e with
      | ErrSyntax =>
        refine ⟨⟨fun h => ?_, fun h => ?_⟩, fun h => ?_⟩
        · rw [herr] at h; cases h
        · exfalso
          rcases h with ⟨n, hnum, _⟩ | hpre
          · obtain ⟨hne, hdig, _⟩ := (hnumiff n).mp hnum
            by_cases hfit : digitsValue 0 (if c = '+' ∨ c = '-' then t else c :: t)
                ≤ 18446744073709551615
            · have hok := (ParseUint_ok_iff _ _).mpr ⟨hne, hdig, rfl, hfit⟩
              rw [hU] at hok
              cases hok
            · have hr := (ParseUint_range_iff _).mpr
                ⟨_, [], (List.append_nil _).symm, hdig, by omega⟩
              rw [hU] at hr
              cases hr
          · have hr := (ParseUint_range_iff _).mpr hpre
            rw [hU] at hr
            cases hr
        · rw [herr] at h; cases h
      | ErrRange =>
        have hres := parseIntChars_of_range c t hU
        refine ⟨⟨fun _ => Or.inr ((ParseUint_range_iff _).mp hU), fun _ => herr⟩, fun _ => ?_⟩
        rw [hres]
    | ok un =>
      have hres := parseIntChars_of_ok c t un hU
      obtain ⟨hne, hdig, hval, hfit⟩ := (ParseUint_ok_iff _ un).mp hU
      have hnopre : ¬ ∃ p rest, (if c = '+' ∨ c = '-' then t else c :: t) = p ++ rest ∧
          (∀ x ∈ p, isDigit x) ∧ 18446744073709551615 < digitsValue 0 p := by
        intro hx
        obtain ⟨p, rest, hp, _, hbig⟩ := hx
        have hle := digitsValue_prefix_le p rest
        rw [← hp, hval] at hle
        omega
      by_cases hm : c = '-'
      · have h1 : ¬ (¬ c = '-' ∧ un ≥ 9223372036854775808) := fun hx => hx.1 hm
        rw [if_neg h1] at hres
        by_cases hbig : un > 9223372036854775808
        · rw [if_pos (And.intro hm hbig)] at hres
          refine ⟨⟨fun _ => Or.inl ⟨-(un : Int), (hnumiff _).mpr ⟨hne, hdig, ?_⟩, ?_⟩,
            fun _ => by rw [hres]⟩, fun _ => ?_⟩
          · rw [if_pos hm, hval]
          · left; omega
          · rw [hres, if_pos hm]
        · rw [if_neg (fun hx => hbig (And.right hx)), if_pos hm] at hres
          refine ⟨⟨fun h => ?_, fun h => ?_⟩, fun h => ?_⟩
          · rw [hres] at h; cases h
          · exfalso
            rcases h with ⟨n, hnum, hout⟩ | hpre
            · obtain ⟨_, _, hn⟩ := (hnumiff n).mp hnum
              rw [if_pos hm, hval] at hn
              omega
            · exact hnopre hpre
          · rw [hres] at h; cases h
      · by_cases hbig : un ≥ 9223372036854775808
        · rw [if_pos (And.intro hm hbig)] at hres
          refine ⟨⟨fun _ => Or.inl ⟨(un : Int), (hnumiff _).mpr ⟨hne, hdig, ?_⟩, ?_⟩,
            fun _ => by rw [hres]⟩, fun _ => ?_⟩
          · rw [if_neg hm, hval]
          · right; omega
          · rw [hres, if_neg hm]
        · rw [if_neg (fun hx => hbig (And.right hx)), if_neg (fun hx => hm (And.left hx)),
            if_neg hm] at hres
          refine ⟨⟨fun h => ?_, fun h => ?_⟩, fun h => ?_⟩
          · rw [hres] at h; cases h
          · exfalso
            rcases h with ⟨n, hnum, hout⟩ | hpre
            · obtain ⟨_, _, hn⟩ := (hnumiff n).mp hnum
              rw [if_neg hm, hval] at hn
              omega
            · exact hnopre hpre
          · rw [hres] at h; cases h

/-- `ParseInt` succeeds exactly on the numerals within the `int64` range. -/
theorem ParseInt_ok_iff_numeral (s : String) :
    (ParseInt s).2 = none ↔ Int64Numeral s.data := by
  unfold Int64Numeral ParseInt
  constructor
  · intro h
    refine ⟨(parseIntChars s.data).1, (parseIntChars_ok_iff _ _).mp ?_⟩
    rw [← h]
  · intro h
    obtain ⟨n, hn⟩ := h
    rw [(parseIntChars_ok_iff _ n).mpr hn]

/-- The value `ParseInt` returns on a text that is not a numeral within the `int64`
range: the bound for an overflowing text, zero for any other. -/
theorem ParseInt_failure_value (s : String) (hfail : ¬ Int64Numeral s.data) :
    (ParseInt s).2 ≠ none ∧
    (OverflowingText s.data → (ParseInt s).1 = int64Bound s.data) ∧
    (¬ OverflowingText s.data → (ParseInt s).1 = 0) := by
  have hne : (ParseInt s).2 ≠ none := fun h => hfail ((ParseInt_ok_iff_numeral s).mp h)
  have hr := parseIntChars_range s.data
  refine ⟨hne, ?_, ?_⟩
  · intro ho
    exact hr.2 (hr.1.mpr ho)
  · intro hno
    cases he : (ParseInt s).2 with
    | none => exact absurd he hne
    | some e =>
      cases e with
      | ErrSyntax => exact (ParseInt_error_value s).1 he
      | ErrRange => exact absurd (hr.1.mp he) hno

theorem call_w_of_not_invoked (lib : Lib) (h : handler) (params : List String)
    (w : ResponseWriter) (r : Request) (hinv : (call lib h params w r).invoked = none) :
    (call lib h params w r).w = w := by
  unfold call at hinv ⊢
  cases hv : h.v with
  | none => rfl
  | some f =>
    rw [hv] at hinv
    cases hb : buildArgs lib f h params with
    | error e => simp only [hb]
    | ok args =>
      cases ha : allValid args with
      | none => simp only [hb, ha]
      | some vals =>
        simp only [hb, ha] at hinv
        cases hinv

/-! ## C10 -/

/-- C10 (fail-open integer coercion) fails as stated for texts on which parsing fails
with a range error: with `/item/{1}` bound to an `int64` argument, for the request
`GET /item/9223372036854775808` (a numeral that does not fit) `ParseInt` returns the
largest `int64` next to its error and that value, not zero, is stored in the
argument slot; the same happens for the text `99999999999999999999x`, which is not a
numeral. -/
theorem C10_range_failure_is_not_zero :
    ParseInt "9223372036854775808" = (9223372036854775807, some .ErrRange) ∧
    (ServeHTTP decimalLib itemAPI ⟨"/item/9223372036854775808", "GET", ""⟩).called
      = some (0, ["9223372036854775808"]) ∧
    buildArgs decimalLib itemFunc (itemAPI.handlers 0) ["9223372036854775808"]
      = .ok [none, some (.int .Int64 9223372036854775807)] ∧
    ParseInt "99999999999999999999x" = (9223372036854775807, some .ErrRange) ∧
    buildArgs decimalLib itemFunc (itemAPI.handlers 0) ["99999999999999999999x"]
      = .ok [none, some (.int .Int64 9223372036854775807)] :=
  ⟨by decide, by decide, rfl, by decide, rfl⟩

/-- C10, amended: for every binding `p` of a handler (the only binding to its
argument position) whose declared argument type is a signed integer of any width,
and every path text `s` at its parameter index that is not a base-10 integer numeral
within the `int64` range, base-10 parsing fails, the round of the binding loop for
`p` completes, nothing is written to the response before the handler function runs,
and in the argument list `call` builds the slot of `p` holds zero, except when `s`
is a numeral outside the `int64` range or its part after the optional sign starts
with digits that denote more than 2^64 - 1: then the slot holds the largest `int64`
(the smallest when `s` starts with `-`) converted to the declared width, which is
the bound itself for `int` and `int64`, and -1 (largest) or 0 (smallest) for `int32`,
`int16` and `int8`. -/
theorem C10_integer_parse_failure (lib : Lib) (f : Func) (h : handler)
    (params : List String) (p : param) (k : Kind) (s : String)
    (hp : p ∈ h.params) (huniq : ∀ q ∈ h.params, q.arg = p.arg → q = p)
    (hpos : 0 < p.arg) (hk : f.ins[p.arg.toNat]? = some k) (hint : k.bits ≠ 0)
    (hs : params[p.path]? = some s) (hfail : ¬ Int64Numeral s.data) :
    (ParseInt s).2 ≠ none ∧
    (∀ args0, ∃ args1, bindParam lib f params args0 p = .ok args1) ∧
    (∀ w req, (call lib h params w req).invoked = none → (call lib h params w req).w = w) ∧
    (∀ args, buildArgs lib f h params = .ok args →
      (¬ OverflowingText s.data → args[p.arg.toNat]? = some (some (.int k 0))) ∧
      (OverflowingText s.data →
        args[p.arg.toNat]? = some (some (.int k (wrapInt k.bits (int64Bound s.data)))))) ∧
    wrapInt Kind.Int.bits 9223372036854775807 = 9223372036854775807 ∧
    wrapInt Kind.Int.bits (-9223372036854775808) = -9223372036854775808 ∧
    wrapInt Kind.Int64.bits 9223372036854775807 = 9223372036854775807 ∧
    wrapInt Kind.Int64.bits (-9223372036854775808) = -9223372036854775808 ∧
    wrapInt Kind.Int32.bits 9223372036854775807 = -1 ∧
    wrapInt Kind.Int32.bits (-9223372036854775808) = 0 ∧
    wrapInt Kind.Int16.bits 9223372036854775807 = -1 ∧
    wrapInt Kind.Int16.bits (-9223372036854775808) = 0 ∧
    wrapInt Kind.Int8.bits 9223372036854775807 = -1 ∧
    wrapInt Kind.Int8.bits (-9223372036854775808) = 0 := by
  have hc := coerce_int lib k params p.path s hint hs
  have hneg : ¬ p.arg < 0 := by omega
  obtain ⟨hne, hover, hzero⟩ := ParseInt_failure_value s hfail
  refine ⟨hne, ?_, fun w req hinv => call_w_of_not_invoked lib h params w req hinv, ?_,
    by decide, by decide, by decide, by decide, by decide, by decide, by decide, by decide,
    by decide, by decide⟩
  · intro args0
    exact ⟨args0.set p.arg.toNat (some (.int k (wrapInt k.bits (ParseInt s).1))),
      by simp only [bindParam, hneg, if_false, hk, hc]⟩
  · intro args hargs
    have hslot : args[p.arg.toNat]? = some (some (.int k (wrapInt k.bits (ParseInt s).1))) := by
      unfold buildArgs at hargs
      cases hb : bindBody f h.jsonBody (List.replicate f.ins.length none) with
      | error e => simp [hb] at hargs
      | ok args0 =>
        simp only [hb] at hargs
        have hlen : p.arg.toNat < args0.length := by
          rw [bindBody_length f h.jsonBody _ args0 hb, List.length_replicate]
          exact (List.getElem?_eq_some.mp hk).1
        exact bindLoop_get lib f params p k _ (by omega) hk hc h.params args0 args hargs
          hp huniq hlen
    constructor
    · intro hno
      rw [hslot, hzero hno, wrapInt_zero k hint]
    · intro ho
      rw [hslot, hover ho]

/-- C10, amended, at a handler `func(x int, id int64)` with `{1}` bound to `id` and the
path text `abc`. -/
theorem C10_integer_parse_failure_witness :
    (ParseInt "abc").2 ≠ none ∧
    (∀ args0, ∃ args1, bindParam decimalLib itemFunc ["abc"] args0 ⟨0, 1⟩ = .ok args1) ∧
    (∀ w req, (call decimalLib ⟨some itemFunc, [⟨0, 1⟩], 0⟩ ["abc"] w req).invoked = none →
      (call decimalLib ⟨some itemFunc, [⟨0, 1⟩], 0⟩ ["abc"] w req).w = w) ∧
    (∀ args, buildArgs decimalLib itemFunc ⟨some itemFunc, [⟨0, 1⟩], 0⟩ ["abc"] = .ok args →
      (¬ OverflowingText "abc".data →
        args[(1 : Int).toNat]? = some (some (.int .Int64 0))) ∧
      (OverflowingText "abc".data →
        args[(1 : Int).toNat]?
          = some (some (.int .Int64 (wrapInt Kind.Int64.bits (int64Bound "abc".data)))))) ∧
    wrapInt Kind.Int.bits 9223372036854775807 = 9223372036854775807 ∧
    wrapInt Kind.Int.bits (-9223372036854775808) = -9223372036854775808 ∧
    wrapInt Kind.Int64.bits 9223372036854775807 = 9223372036854775807 ∧
    wrapInt Kind.Int64.bits (-9223372036854775808) = -9223372036854775808 ∧
    wrapInt Kind.Int32.bits 9223372036854775807 = -1 ∧
    wrapInt Kind.Int32.bits (-9223372036854775808) = 0 ∧
    wrapInt Kind.Int16.bits 9223372036854775807 = -1 ∧
    wrapInt Kind.Int16.bits (-9223372036854775808) = 0 ∧
    wrapInt Kind.Int8.bits 9223372036854775807 = -1 ∧
    wrapInt Kind.Int8.bits (-9223372036854775808) = 0 :=
  C10_integer_parse_failure decimalLib itemFunc ⟨some itemFunc, [⟨0, 1⟩], 0⟩ ["abc"] ⟨0, 1⟩
    .Int64 "abc" (by decide) (by decide) (by decide) rfl (by decide) rfl
    (fun hx => absurd ((ParseInt_ok_iff_numeral "abc").mpr hx) (by decide))

end simpleapi
